import Mathlib

/-! # skell.c: the pipeline parser, the process orchestrator, the resolver and `uniq`

A shallow embedding of `src/skell.c`.

* C strings are lists of characters without their terminator (`CStr`).
* The line buffer handed to `parse_command` is a block of bytes `mem` addressed
  by natural numbers; `strtok` and the parser write into it exactly where the C
  code does.  An address outside the block reads as NUL and a write to it is lost.
* `malloc` does not clear what it returns: the contents of the block handed out
  for the `k`-th chained command are the parameter `fresh k`.
* The arrays of fixed size that the code fills without a check keep their size:
  `temp_buf[1024]` in `parse_command`, `paths[32]` in `resolve_command` and the
  1024 bytes of `command_path` in `process_command`.  A write past the end of
  one of them ends the run (`Parsed.overflow`, `none`, `Outcome.crashed`): the
  behaviour of the program is undefined from there on.
* System calls are recorded as a trace of events; what the kernel answers
  (the value of `fork`, `open`, `pipe`, `chdir`, `execv`) is read from an
  environment, one answer per call.
-/

namespace Skell

/-- A C string, without its terminating NUL. -/
abbrev CStr := List Char

/-- The terminator byte. -/
def NUL : Char := Char.ofNat 0

/-- `enum return_codes`. -/
def SUCCESS : Nat := 0

/-- `enum return_codes`. -/
def EXIT : Nat := 1

/-- `enum return_codes`. -/
def UNKNOWN : Nat := 2

/-- `struct command_t`.  `redirects[3]` is the three fields `r0 r1 r2`; a null
pointer is `none`. -/
inductive command_t where
  | mk (name : CStr) (background : Bool) (auto_complete : Bool) (arg_count : Nat)
      (args : List CStr) (r0 r1 r2 : Option CStr) (next : Option command_t)

namespace command_t

def name : command_t → CStr
  | mk n _ _ _ _ _ _ _ _ => n

def background : command_t → Bool
  | mk _ b _ _ _ _ _ _ _ => b

def auto_complete : command_t → Bool
  | mk _ _ a _ _ _ _ _ _ => a

def arg_count : command_t → Nat
  | mk _ _ _ k _ _ _ _ _ => k

def args : command_t → List CStr
  | mk _ _ _ _ l _ _ _ _ => l

/-- `command->redirects[i]`. -/
def redirects : command_t → Nat → Option CStr
  | mk _ _ _ _ _ r0 _ _ _, 0 => r0
  | mk _ _ _ _ _ _ r1 _ _, 1 => r1
  | mk _ _ _ _ _ _ _ r2 _, 2 => r2
  | _, _ => none

def next : command_t → Option command_t
  | mk _ _ _ _ _ _ _ _ nx => nx

def set_name : command_t → CStr → command_t
  | mk _ b a k l r0 r1 r2 nx, n => mk n b a k l r0 r1 r2 nx

def set_background : command_t → Bool → command_t
  | mk n _ a k l r0 r1 r2 nx, b => mk n b a k l r0 r1 r2 nx

def set_auto_complete : command_t → Bool → command_t
  | mk n b _ k l r0 r1 r2 nx, a => mk n b a k l r0 r1 r2 nx

def set_arg_count : command_t → Nat → command_t
  | mk n b a _ l r0 r1 r2 nx, k => mk n b a k l r0 r1 r2 nx

def set_args : command_t → List CStr → command_t
  | mk n b a k _ r0 r1 r2 nx, l => mk n b a k l r0 r1 r2 nx

/-- `command->redirects[i] = v` for `i` in 0..2. -/
def set_redirect : command_t → Nat → CStr → command_t
  | mk n b a k l _ r1 r2 nx, 0, v => mk n b a k l (some v) r1 r2 nx
  | mk n b a k l r0 _ r2 nx, 1, v => mk n b a k l r0 (some v) r2 nx
  | mk n b a k l r0 r1 _ nx, 2, v => mk n b a k l r0 r1 (some v) nx
  | c, _, _ => c

def set_next : command_t → Option command_t → command_t
  | mk n b a k l r0 r1 r2 _, nx => mk n b a k l r0 r1 r2 nx

end command_t

/-- What `memset(command, 0, sizeof(struct command_t))` in `main` leaves: every
pointer null, every flag false. -/
def zero_command : command_t :=
  command_t.mk [] false false 0 [] none none none none

/-! ## The C library functions the parser uses -/

/-- The byte at address `p`. -/
def rd (mem : List Char) (p : Nat) : Char := mem.getD p NUL

/-- The block after the byte at address `p` is overwritten with `c`. -/
def wr (mem : List Char) (p : Nat) (c : Char) : List Char := mem.set p c

/-- The C string that starts at address `p`. -/
def cstr (mem : List Char) (p : Nat) : CStr :=
  (mem.drop p).takeWhile (fun c => c != NUL)

def strlen (mem : List Char) (p : Nat) : Nat := (cstr mem p).length

/-- `strchr(s, c) != NULL`; the terminator of `s` counts as part of it. -/
def strchr (s : CStr) (c : Char) : Bool := c == NUL || s.contains c

/-- Length of the run at `p` made of bytes of `accept`. -/
def strspn (mem : List Char) (p : Nat) (accept : CStr) : Nat :=
  ((mem.drop p).takeWhile (fun c => c != NUL && accept.contains c)).length

/-- Length of the run at `p` made of bytes outside `reject`. -/
def strcspn (mem : List Char) (p : Nat) (reject : CStr) : Nat :=
  ((mem.drop p).takeWhile (fun c => c != NUL && !reject.contains c)).length

/-- `strtok(s, delim)`; `olds` is its saved position.  Returns the token's
address (or `none` for NULL), the block, and the new saved position. -/
def strtok (mem : List Char) (s : Option Nat) (delim : CStr) (olds : Nat) :
    Option Nat × List Char × Nat :=
  let s0 := s.getD olds
  if rd mem s0 = NUL then (none, mem, s0)
  else
    let s1 := s0 + strspn mem s0 delim
    if rd mem s1 = NUL then (none, mem, s1)
    else
      let e := s1 + strcspn mem s1 delim
      if rd mem e = NUL then (some s1, mem, e)
      else (some s1, wr mem e NUL, e + 1)

/-! ## parse_command (skell.c 90-196) -/

/-- `const char *splitters = " \t"`. -/
def splitters : CStr := [' ', '\t']

/-- Lines 94-98: `while (len > 0 && strchr(splitters, buf[0]) != NULL) { buf++; len--; }`.
Returns the new `buf` and `len`. -/
def trim_left (mem : List Char) : Nat → Nat → Nat × Nat
  | buf, 0 => (buf, 0)
  | buf, len + 1 =>
    if strchr splitters (rd mem buf) then trim_left mem (buf + 1) len
    else (buf, len + 1)

/-- Lines 99-100: `while (len > 0 && strchr(splitters, buf[len - 1]) != NULL) buf[--len] = 0;`.
Returns the block and the new `len`. -/
def trim_right (buf : Nat) : List Char → Nat → List Char × Nat
  | mem, 0 => (mem, 0)
  | mem, len + 1 =>
    if strchr splitters (rd mem (buf + len)) then trim_right buf (wr mem (buf + len) NUL) len
    else (mem, len + 1)

/-- Lines 133-137 on the copy in `temp_buf`: drop leading splitters. -/
def arg_trim_left : CStr → CStr
  | [] => []
  | c :: cs => if strchr splitters c then arg_trim_left cs else c :: cs

/-- Lines 138-139 on the copy in `temp_buf`: drop trailing splitters. -/
def arg_trim_right (arg : CStr) : CStr :=
  (arg_trim_left arg.reverse).reverse

/-- Lines 149-150: `while (pch[index] == ' ' || pch[index] == '\t') index++;`
starting from `index = 1`. -/
def skip_blanks (mem : List Char) (pch : Nat) : Nat :=
  1 + ((mem.drop (pch + 1)).takeWhile (fun c => c == ' ' || c == '\t')).length

/-- Lines 164-174: the redirect slot a token selects, and the token with the
extra `>` of `>>` skipped (`arg++`). -/
def redirect_index (arg : CStr) : Option Nat × CStr :=
  let r : Option Nat := if arg.head? = some '<' then some 0 else none
  if arg.head? = some '>' then
    if arg.length > 1 ∧ arg.get? 1 = some '>' then (some 2, arg.drop 1)
    else (some 1, arg)
  else (r, arg)

/-- Lines 182-188: a token longer than 2 that starts and ends with the same
quote character loses its last byte (`arg[--len] = 0`) and its first (`arg++`). -/
def strip_quotes (arg : CStr) : CStr :=
  let len := arg.length
  if len > 2 ∧
      ((arg.get? 0 = some '"' ∧ arg.get? (len - 1) = some '"') ∨
       (arg.get? 0 = some '\'' ∧ arg.get? (len - 1) = some '\'')) then
    (arg.take (len - 1)).drop 1
  else arg

/-- Lines 163-192: what a token that is neither `|` nor `&` does to the command
and to `arg_index`. -/
def store_token (command : command_t) (arg_index : Nat) (arg : CStr) : command_t × Nat :=
  match redirect_index arg with
  | (some i, arg1) => (command.set_redirect i (arg1.drop 1), arg_index)
  | (none, arg1) => (command.set_args (command.args ++ [strip_quotes arg1]), arg_index + 1)

/-- Lines 93-116: trimming, the two flags, the first `strtok`, the name and the
empty argument array.  Returns the command, the block and `strtok`'s saved
position. -/
def parse_head (mem : List Char) (buf : Nat) (olds : Nat) (command : command_t) :
    command_t × List Char × Nat :=
  let len := strlen mem buf
  let (buf, len) := trim_left mem buf len
  let (mem, len) := trim_right buf mem len
  let command :=
    if len > 0 ∧ rd mem (buf + len - 1) = '?' then command.set_auto_complete true else command
  let command :=
    if len > 0 ∧ rd mem (buf + len - 1) = '&' then command.set_background true else command
  match strtok mem (some buf) splitters olds with
  | (none, mem, olds) => ((command.set_name []).set_args [], mem, olds)
  | (some pch, mem, olds) => ((command.set_name (cstr mem pch)).set_args [], mem, olds)

/-- The size of `char temp_buf[1024]` (line 120). -/
def temp_buf_size : Nat := 1024

/-- How a run of the token loop ends. -/
inductive Parsed where
  /-- The iteration bound of the model ran out. -/
  | out_of_fuel : Parsed
  /-- The `strcpy(arg, pch)` of line 128 wrote past the end of `temp_buf`: the
  behaviour of the program is undefined from there on. -/
  | overflow : Parsed
  /-- The loop ended at line 194 with this command, block and saved position of
  `strtok`. -/
  | done : command_t → List Char → Nat → Parsed

/-- Lines 122-195: the token loop; the call `parse_command(pch + index, c)` of
line 152 is `parse_head` followed by the loop on the new command.  `fresh k` is
what `malloc` hands out for the `k`-th chained command, `fuel` bounds the number
of iterations.  Line 128 copies every token, with its terminator, into
`temp_buf`: a token of `temp_buf_size` bytes or more does not fit. -/
def parse_loop (fresh : Nat → command_t) :
    Nat → Nat → List Char → Nat → command_t → Nat → Parsed
  | 0, _, _, _, _, _ => Parsed.out_of_fuel
  | fuel + 1, depth, mem, olds, command, arg_index =>
    match strtok mem none splitters olds with
    | (none, mem, olds) => Parsed.done (command.set_arg_count arg_index) mem olds
    | (some pch, mem, olds) =>
      let arg := cstr mem pch
      if temp_buf_size < arg.length + 1 then Parsed.overflow
      else if arg.length = 0 then parse_loop fresh fuel depth mem olds command arg_index
      else
        let arg := arg_trim_right (arg_trim_left arg)
        if arg.length = 0 then parse_loop fresh fuel depth mem olds command arg_index
        else if arg = ['|'] then
          let c := fresh depth
          let l := strlen mem pch
          let mem := wr mem (pch + l) ' '
          let index := skip_blanks mem pch
          let (c, mem, olds) := parse_head mem (pch + index) olds c
          match parse_loop fresh fuel (depth + 1) mem olds c 0 with
          | Parsed.out_of_fuel => Parsed.out_of_fuel
          | Parsed.overflow => Parsed.overflow
          | Parsed.done c mem olds =>
            let mem := wr mem (pch + l) NUL
            parse_loop fresh fuel depth mem olds (command.set_next (some c)) arg_index
        else if arg = ['&'] then parse_loop fresh fuel depth mem olds command arg_index
        else
          let (command, arg_index) := store_token command arg_index arg
          parse_loop fresh fuel depth mem olds command arg_index

/-- `parse_command(buf, command)` with an explicit iteration bound. -/
def parse_command_fuel (fresh : Nat → command_t) (fuel depth : Nat) (mem : List Char)
    (buf olds : Nat) (command : command_t) : Parsed :=
  let (c, mem, olds) := parse_head mem buf olds command
  parse_loop fresh fuel depth mem olds c 0

/-- `parse_command(buf, command)` as `prompt` calls it: the line is the C string
at the start of the block `mem`.  Every iteration of the loop consumes at least
one byte of the block, so its length bounds the iterations
(`parse_command_never_out_of_fuel`).  The result is `none` when the call does
not return a command: a token overflowed `temp_buf`. -/
def parse_command (fresh : Nat → command_t) (mem : List Char) (command : command_t) :
    Option command_t :=
  match parse_command_fuel fresh (mem.length + 1) 0 mem 0 0 command with
  | Parsed.out_of_fuel => none
  | Parsed.overflow => none
  | Parsed.done c _ _ => some c

/-! ## resolve_command (skell.c 502-540) -/

/-- What the operating system and the C runtime supply to a run. -/
structure Env where
  /-- The value the kernel returns for the n-th call that has one. -/
  answer : Nat → Int
  /-- The value of `getenv("PATH")`. -/
  PATH : CStr
  /-- The string an uninitialised slot of `paths` points to (`none` for a null
  pointer) before the code stores anything there. -/
  stale : Nat → Option CStr
  /-- The entry names `readdir` yields for a directory, in order; `none` when
  `opendir` fails. -/
  listing : CStr → Option (List CStr)
  /-- The text of `strerror(errno)` after a failed `chdir`. -/
  strerror : CStr

/-- Lines 506-513: the tokens `strtok(cpy, ":")` and `strtok(NULL, ":")` yield,
in order.  `tkn` is the token in hand. -/
def path_tokens : Nat → List Char → Nat → Option Nat → List CStr
  | 0, _, _, _ => []
  | _ + 1, _, _, none => []
  | fuel + 1, mem, olds, some tkn =>
    match strtok mem none [':'] olds with
    | (t, mem1, olds1) => cstr mem tkn :: path_tokens fuel mem1 olds1 t

/-- The number of slots of `char* paths[32]` (line 504). -/
def paths_slots : Nat := 32

/-- Lines 503-514: the slots of `char* paths[32]` after the copy loop.  Slot `i`
below the number of tokens holds the `i`-th directory; every other slot still
holds what was there before.  The loop stores `paths[j]` without a bound on
`j`: with more than `paths_slots` directories it writes past the end of the
array, the behaviour is undefined and the result is `none`. -/
def fill_paths (env : Env) : Option (Nat → Option CStr) :=
  let cpy := env.PATH ++ [NUL]
  let dirs :=
    match strtok cpy (some 0) [':'] 0 with
    | (t, mem, olds) => path_tokens (cpy.length + 1) mem olds t
  if paths_slots < dirs.length then none
  else some (fun i => if i < dirs.length then dirs.get? i else env.stale i)

/-- The bound of the loop of line 516, `sizeof(paths)`: 32 pointers of 8 bytes. -/
def sizeof_paths : Nat := 32 * 8

/-- Lines 516-537: slots `i`, `i + 1`, ... are visited while `n` remain; the
first slot that is not null, opens as a directory and lists `command_name`
gives the path.  Line 538 writes the empty string when none does. -/
def scan_paths (env : Env) (paths : Nat → Option CStr) (command_name : CStr) :
    Nat → Nat → CStr
  | 0, _ => []
  | n + 1, i =>
    match paths i with
    | none => scan_paths env paths command_name n (i + 1)
    | some d =>
      match env.listing d with
      | none => scan_paths env paths command_name n (i + 1)
      | some entries =>
        if entries.contains command_name then d ++ '/' :: command_name
        else scan_paths env paths command_name n (i + 1)

/-- `resolve_command(command_name, pth)`: the string left in `pth`; `none` when
the copy loop wrote past the end of `paths`. -/
def resolve_command (env : Env) (command_name : CStr) : Option CStr :=
  match fill_paths env with
  | none => none
  | some paths => some (scan_paths env paths command_name sizeof_paths 0)

/-! ## solve_uniq (skell.c 449-478) -/

/-- `getline(&curr, &len, stdin)`: the next record, up to and including its
newline, and the rest of the stream; `none` at end of stream. -/
def getline (stdin : List Char) : Option (List Char × List Char) :=
  match stdin with
  | [] => none
  | _ :: _ =>
    let body := stdin.takeWhile (fun c => c != '\n')
    let rest := stdin.drop body.length
    match rest with
    | [] => some (body, [])
    | nl :: rest1 => some (body ++ [nl], rest1)

/-- The bytes of a buffer a C string function sees: up to the first NUL. -/
def c_view (b : List Char) : CStr := b.takeWhile (fun c => c != NUL)

/-- `printf("%d %s", count, s)` or `printf("%s", s)`. -/
def uniq_print (print_count : Bool) (count : Nat) (s : CStr) : List Char :=
  if print_count then Nat.toDigits 10 count ++ ' ' :: s else s

/-- Lines 456-477.  `prev` is `none` while it is the null pointer; `curr` is the
string in the buffer `getline` fills, which `getline` leaves as it is when it
reports the end of the stream.  Returns what was written to standard output. -/
def uniq_loop (print_count : Bool) :
    Nat → List Char → Option CStr → CStr → Nat → List Char → Option (List Char)
  | 0, _, _, _, _, _ => none
  | fuel + 1, stdin, prev, curr, count, out =>
    match getline stdin with
    | none => some (out ++ uniq_print print_count count curr)
    | some (record, stdin1) =>
      let curr := c_view record
      let (count, out) :=
        if prev = none ∨ prev = some curr then (count + 1, out)
        else (1, out ++ uniq_print print_count count (prev.getD []))
      uniq_loop print_count fuel stdin1 (some curr) curr count out

/-- `solve_uniq(command)`, called with the argument vector `process_command`
rebuilt (`args[0]` the name, then the arguments, then a null pointer).
`eof_buffer` is the string found in the buffer `curr` points to when the very
first `getline` reports the end of the stream: nothing has been stored in it. -/
def solve_uniq (arg_count : Nat) (args : List (Option CStr)) (stdin : List Char)
    (eof_buffer : CStr) : Option (List Char) :=
  let print_count : Bool :=
    decide (arg_count ≥ 3) &&
      (args.get? 1 == some (some ['-', 'c']) ||
       args.get? 1 == some (some ['-', '-', 'c', 'o', 'u', 'n', 't']))
  uniq_loop print_count (stdin.length + 1) stdin none eof_buffer 0 []

/-! ## process_command (skell.c 317-430) -/

/-- The flags of `open` the code uses. -/
inductive OFlag where
  | O_RDWR | O_CREAT | O_TRUNC | O_APPEND
  deriving DecidableEq

/-- A call made by the running process, with the value it returned. -/
inductive Event where
  | chdir (path : CStr) (r : Int)
  | printf (text : List Char)
  | fork (r : Int)
  | sys_open (path : CStr) (flags : List OFlag) (r : Int)
  | dup2 (oldfd newfd : Int)
  | close (fd : Int)
  | pipe (fd0 fd1 : Int)
  | wait
  | execv (path : CStr) (argv : List (Option CStr)) (r : Int)
  | execute_builtin (name : CStr) (arg_count : Nat) (argv : List (Option CStr))
  deriving DecidableEq

/-- How a call of `process_command` ends for the process that runs it: it returns
a code to its caller, the process exits, `execv` replaced its image, or the
process wrote past the end of an array and its behaviour is undefined from
there on. -/
inductive Outcome where
  | returned (code : Nat)
  | exited (status : Nat)
  | replaced
  | crashed
  deriving DecidableEq

/-- The calls made so far and the number of kernel answers used. -/
structure World where
  trace : List Event
  tick : Nat

/-- A call whose return value the code does not use. -/
def World.note (w : World) (e : Event) : World :=
  { trace := w.trace ++ [e], tick := w.tick }

/-- A call whose return value is the next answer of the kernel. -/
def World.call (w : World) (env : Env) (e : Int → Event) : Int × World :=
  (env.answer w.tick, { trace := w.trace ++ [e (env.answer w.tick)], tick := w.tick + 1 })

/-- `is_builtin(name)`. -/
def is_builtin (name : CStr) : Bool :=
  name == "uniq".toList || name == "chatroom".toList || name == "wiseman".toList ||
    name == "myfactor".toList

/-- The size of the block `command_path = malloc(1024)` (line 357). -/
def command_path_size : Nat := 1024

/-- Lines 357-361: the content of `command_path` after
`resolve_command(command->name, command_path)`, which is called when the name
is not a built-in; for a built-in the block is never read.  `none` when the
call wrote past the end of `paths`, or past the end of `command_path` because
the path and its terminator do not fit: the behaviour is undefined. -/
def command_path_of (env : Env) (built_in : Bool) (name : CStr) : Option CStr :=
  if built_in then some []
  else
    match resolve_command env name with
    | none => none
    | some pth => if command_path_size < pth.length + 1 then none else some pth

/-- `const char *sysname = "shellax"`. -/
def sysname : CStr := "shellax".toList

/-- Lines 364-368: input redirection. -/
def redirect_input (env : Env) (command : command_t) (w : World) : World :=
  match command.redirects 0 with
  | some target =>
    let (fd, w) := w.call env (Event.sys_open target [OFlag.O_RDWR, OFlag.O_CREAT])
    (w.note (Event.dup2 fd 0)).note (Event.close fd)
  | none => w

/-- Lines 369-377: output redirection; slot 2 is looked at only when slot 1 is null. -/
def redirect_output (env : Env) (command : command_t) (w : World) : World :=
  match command.redirects 1 with
  | some target =>
    let (fd, w) :=
      w.call env (Event.sys_open target [OFlag.O_RDWR, OFlag.O_CREAT, OFlag.O_TRUNC])
    (w.note (Event.dup2 fd 1)).note (Event.close fd)
  | none =>
    match command.redirects 2 with
    | some target =>
      let (fd, w) :=
        w.call env (Event.sys_open target [OFlag.O_RDWR, OFlag.O_CREAT, OFlag.O_APPEND])
      (w.note (Event.dup2 fd 1)).note (Event.close fd)
    | none => w

/-- Lines 388-391 and 408-411: `if (piping_input_fd != 0) { dup2(...); close(...); }`. -/
def bind_input (piping_input_fd : Int) (w : World) : World :=
  if piping_input_fd ≠ 0 then
    (w.note (Event.dup2 piping_input_fd 0)).note (Event.close piping_input_fd)
  else w

/-- Lines 396-400 and 412-416, then `exit(0)` of line 421: the built-in runs and
the process exits, or `execv` replaces the image; when `execv` fails the
process goes on to `exit(0)`. -/
def run_stage (env : Env) (built_in : Bool) (name : CStr) (arg_count : Nat)
    (argv : List (Option CStr)) (command_path : CStr) (w : World) : Outcome × World :=
  if built_in then (Outcome.exited 0, w.note (Event.execute_builtin name arg_count argv))
  else
    let (r, w) := w.call env (Event.execv command_path argv)
    if r = -1 then (Outcome.exited 0, w) else (Outcome.replaced, w)

/-- Lines 378-417 and the `exit(0)` of line 421, in the child.  `rest` is the
recursive call `process_command(command->next, ·)` when `command->next` is not
null; its value is dropped and `exit(0)` follows. -/
def piping_section (env : Env) (rest : Option (Int → World → Outcome × World))
    (built_in : Bool) (name : CStr) (arg_count : Nat) (argv : List (Option CStr))
    (command_path : CStr) (piping_input_fd : Int) (w : World) : Outcome × World :=
  match rest with
  | some process_next =>
    -- `pipe(fd)` stores two descriptors
    let fd0 := env.answer w.tick
    let fd1 := env.answer (w.tick + 1)
    let w : World := { trace := w.trace ++ [Event.pipe fd0 fd1], tick := w.tick + 2 }
    let (pipe_pid, w) := w.call env Event.fork
    if pipe_pid = 0 then
      let w := w.note (Event.close fd0)
      let w := bind_input piping_input_fd w
      let w := if fd1 ≠ 1 then (w.note (Event.dup2 fd1 1)).note (Event.close fd1) else w
      run_stage env built_in name arg_count argv command_path w
    else
      let w := w.note (Event.close fd1)
      let w := w.note (Event.close piping_input_fd)
      let w := w.note Event.wait
      match process_next fd0 w with
      | (Outcome.returned _, w) => (Outcome.exited 0, w)
      | (out, w) => (out, w)
  | none =>
    let w := bind_input piping_input_fd w
    run_stage env built_in name arg_count argv command_path w

/-- The body of `process_command(command, piping_input_fd)`, followed in one
process: after a `fork` the run continues in the child when the kernel's answer
is 0 and in the parent otherwise.  `rest` is the recursive call
`process_command(command->next, ·)` when `command->next` is not null. -/
def process_stage (env : Env) (command : command_t)
    (rest : Option (Int → World → Outcome × World)) (piping_input_fd : Int) (w : World) :
    Outcome × World :=
  if command.name = [] then (Outcome.returned SUCCESS, w)
  else if command.name = "exit".toList then (Outcome.returned EXIT, w)
  else if command.name = "cd".toList ∧ command.arg_count > 0 then
    let (r, w) := w.call env (Event.chdir (command.args.headD []))
    let w :=
      if r = -1 then
        w.note (Event.printf
          ('-' :: sysname ++ ": ".toList ++ command.name ++ ": ".toList ++ env.strerror ++ ['\n']))
      else w
    (Outcome.returned SUCCESS, w)
  else
    let (pid, w) := w.call env Event.fork
    if pid = 0 then
      -- lines 348-356: name first, a null pointer last
      let arg_count := command.arg_count + 2
      let argv : List (Option CStr) := some command.name :: command.args.map some ++ [none]
      let built_in := is_builtin command.name
      match command_path_of env built_in command.name with
      | none => (Outcome.crashed, w)
      | some command_path =>
        if built_in ∨ command_path ≠ [] then
          let w := redirect_input env command w
          let w := redirect_output env command w
          piping_section env rest built_in command.name arg_count argv command_path
            piping_input_fd w
        else
          let w := w.note (Event.printf ("command not found: ".toList ++ command.name ++ ['\n']))
          (Outcome.exited 0, w)
    else
      let w := if command.background = false then w.note Event.wait else w
      (Outcome.returned SUCCESS, w)

/-- `process_command(command, piping_input_fd)`: `process_stage` with the
recursive call on `command->next` tied in. -/
def process_command (env : Env) : command_t → Int → World → Outcome × World
  | command_t.mk name background auto_complete arg_count args r0 r1 r2 none =>
    process_stage env (command_t.mk name background auto_complete arg_count args r0 r1 r2 none)
      none
  | command_t.mk name background auto_complete arg_count args r0 r1 r2 (some nx) =>
    process_stage env (command_t.mk name background auto_complete arg_count args r0 r1 r2 (some nx))
      (some (process_command env nx))

/-! ## Lines as the parser sees them -/

/-- A run of spaces and tabs. -/
def is_blanks (w : CStr) : Prop := ∀ c ∈ w, c = ' ' ∨ c = '\t'

/-- A token: not empty, no NUL, no space, no tab. -/
def is_word (t : CStr) : Prop := t ≠ [] ∧ ∀ c ∈ t, c ≠ NUL ∧ c ≠ ' ' ∧ c ≠ '\t'

instance (w : CStr) : Decidable (is_blanks w) := by unfold is_blanks; infer_instance

instance (t : CStr) : Decidable (is_word t) := by unfold is_word; infer_instance

/-- The text of a sequence of tokens, each written after its run of blanks. -/
def raw : List (CStr × CStr) → List Char
  | [] => []
  | (w, t) :: more => w ++ t ++ raw more

/-- Every token is a word and follows a run of blanks that is not empty. -/
def tight (toks : List (CStr × CStr)) : Prop :=
  ∀ p ∈ toks, is_blanks p.1 ∧ p.1 ≠ [] ∧ is_word p.2

/-- As `tight`, but the run before the first token may be empty. -/
def loose : List (CStr × CStr) → Prop
  | [] => True
  | (w, t) :: more => is_blanks w ∧ is_word t ∧ tight more

instance (toks : List (CStr × CStr)) : Decidable (tight toks) := by
  unfold tight; infer_instance

/-! ## The parser in the words of spec.md 4.2

What each token of a stage does to the command, stated on lists of tokens. -/

/-- Lines 102-105, given the last byte of the trimmed line. -/
def set_flags (command : command_t) (last : Char) : command_t :=
  let command := if last = '?' then command.set_auto_complete true else command
  if last = '&' then command.set_background true else command

/-- The last byte of a text (NUL for the empty text). -/
def last_byte (l : List Char) : Char := l.getLast?.getD NUL

/-- The loop of spec.md 4.2 over the tokens that follow the command name:
`|` hands the rest of the line to a new command and stops, `&` is dropped, any
other token is stored.  `last` is the last byte of the trimmed line and
`fresh k` the block the `k`-th chained command is built in. -/
def loop_spec (fresh : Nat → command_t) (last : Char) :
    List CStr → Nat → command_t → Nat → command_t
  | [], _, c, k => c.set_arg_count k
  | t :: ts, depth, c, k =>
    if t = ['|'] then
      match ts with
      | [] =>
        (c.set_next (some ((((fresh depth).set_name []).set_args []).set_arg_count 0))).set_arg_count k
      | n :: ts1 =>
        (c.set_next (some (loop_spec fresh last ts1 (depth + 1)
          (((set_flags (fresh depth) last).set_name n).set_args []) 0))).set_arg_count k
    else if t = ['&'] then loop_spec fresh last ts depth c k
    else loop_spec fresh last ts depth (store_token c k t).1 (store_token c k t).2

/-- Every token that line 128 copies into `temp_buf` fits there with its
terminator.  These are the tokens that follow the command name of a stage, the
`|` included; the token after a `|` is the name of the next command, which
line 113 copies into a block of its own size. -/
def fits_temp_buf : List CStr → Bool
  | [] => true
  | t :: ts =>
    decide (t.length < temp_buf_size) &&
      (if t = ['|'] then
        (match ts with
          | [] => true
          | _ :: ts1 => fits_temp_buf ts1)
      else fits_temp_buf ts)

/-- The tokens of a stage: those that come before the first `|`. -/
def head_tokens (words : List CStr) : List CStr := words.takeWhile (fun t => t != ['|'])

/-- The loop over tokens none of which is `|`: `&` is skipped, any other token
goes through `store_token`. -/
def fold_tokens (c : command_t) (k : Nat) : List CStr → command_t × Nat
  | [] => (c, k)
  | t :: ts =>
    if t = ['&'] then fold_tokens c k ts
    else fold_tokens (store_token c k t).1 (store_token c k t).2 ts

/-- A normal argument: a token that is not `|`, not `&`, and does not start
with `<` or `>`. -/
def is_normal (t : CStr) : Bool :=
  t != ['|'] && t != ['&'] && t.head? != some '<' && t.head? != some '>'

/-- Quote stripping as spec.md words it: a token longer than 2 whose first and
last characters are both `"` or both the single quote loses exactly these two
characters; any other token is kept as it is. -/
def unquote_spec (t : CStr) : CStr :=
  if 2 < t.length ∧
      ((t.head? = some '"' ∧ t.getLast? = some '"') ∨
       (t.head? = some '\'' ∧ t.getLast? = some '\'')) then t.tail.dropLast
  else t

/-- The target of a token `<t`. -/
def in_target : CStr → Option CStr
  | '<' :: r => some r
  | _ => none

/-- The target of a token `>>t`. -/
def append_target : CStr → Option CStr
  | '>' :: '>' :: r => some r
  | _ => none

/-- The target of a token `>t` whose second character is not `>`. -/
def trunc_target : CStr → Option CStr
  | '>' :: '>' :: _ => none
  | '>' :: r => some r
  | _ => none

/-- `P` holds of a node and of every node reached through `next`. -/
def chain_all (P : command_t → Prop) : command_t → Prop
  | command_t.mk n b a k l r0 r1 r2 none => P (command_t.mk n b a k l r0 r1 r2 none)
  | command_t.mk n b a k l r0 r1 r2 (some nx) =>
    P (command_t.mk n b a k l r0 r1 r2 (some nx)) ∧ chain_all P nx

/-- A block `malloc` hands out after it was used for something else: the bytes
where `background`, the redirect slots and `next` live are not zero. -/
def stale_block : command_t :=
  command_t.mk "sort".toList true false 1 ["-r".toList] none (some "old.txt".toList) none
    (some (command_t.mk "wc".toList true false 0 [] none none none none))

/-! ## The calls a process makes -/

/-- A run of colons. -/
def is_colons (w : CStr) : Prop := ∀ c ∈ w, c = ':'

/-- A directory of the search path: not empty, no NUL, no colon. -/
def is_dir (d : CStr) : Prop := d ≠ [] ∧ ∀ c ∈ d, c ≠ NUL ∧ c ≠ ':'

/-- Every directory follows a run of colons that is not empty. -/
def tight_path (dirs : List (CStr × CStr)) : Prop :=
  ∀ p ∈ dirs, is_colons p.1 ∧ p.1 ≠ [] ∧ is_dir p.2

instance (w : CStr) : Decidable (is_colons w) := by unfold is_colons; infer_instance

instance (d : CStr) : Decidable (is_dir d) := by unfold is_dir; infer_instance

instance (dirs : List (CStr × CStr)) : Decidable (tight_path dirs) := by
  unfold tight_path; infer_instance

/-- The path the specification describes: the first directory, in order, that
opens and lists `command_name`, joined to it with a slash; the empty string
when there is none. -/
def first_match (env : Env) (command_name : CStr) : List CStr → CStr
  | [] => []
  | d :: ds =>
    match env.listing d with
    | none => first_match env command_name ds
    | some entries =>
      if entries.contains command_name then d ++ '/' :: command_name
      else first_match env command_name ds

/-- An environment in which the search path names `/bin` only, `/bin` holds
`ls`, `/opt` holds `tool`, and the second slot of `paths`, which the code never
writes, holds a pointer to the text `/opt`. -/
def stale_env : Env where
  answer := fun _ => 0
  PATH := "/bin".toList
  stale := fun i => if i = 1 then some "/opt".toList else none
  listing := fun d =>
    if d = "/bin".toList then some ["ls".toList]
    else if d = "/opt".toList then some ["tool".toList]
    else none
  strerror := []

/-- A run followed in the shell process: every `fork` answers with the pid of
the child, 4711. -/
def shell_side_env : Env where
  answer := fun _ => 4711
  PATH := "/bin".toList
  stale := fun _ => none
  listing := fun d => if d = "/bin".toList then some ["ls".toList] else none
  strerror := "No such file or directory".toList

/-! ## Runs of adjacent equal lines -/

/-- The bytes of a sequence of lines, each followed by its newline. -/
def render_lines : List CStr → List Char
  | [] => []
  | l :: ls => l ++ '\n' :: render_lines ls

/-- A run in front of a list of runs: joined to the first run when the line is
the same. -/
def merge_run (p : CStr) (k : Nat) : List (CStr × Nat) → List (CStr × Nat)
  | [] => [(p, k)]
  | (m, j) :: rs => if m = p then (p, k + j) :: rs else (p, k) :: (m, j) :: rs

/-- The maximal runs of adjacent equal lines, each with its length, in order. -/
def runs : List CStr → List (CStr × Nat)
  | [] => []
  | l :: ls => merge_run l 1 (runs ls)

/-- What `uniq` is to write for a list of runs: each line once, after its
count and a space when counts are asked for. -/
def render_runs (print_count : Bool) : List (CStr × Nat) → List Char
  | [] => []
  | (l, k) :: rs => uniq_print print_count k (l ++ ['\n']) ++ render_runs print_count rs

/-! ## Reading and writing the block -/

theorem rd_append_right (a b : List Char) (p i : Nat) (hp : p = a.length + i) :
    rd (a ++ b) p = rd b i := by
  subst hp
  simp [rd, List.getD_eq_getElem?_getD, List.getElem?_append_right]

theorem rd_cons_zero (c : Char) (r : List Char) : rd (c :: r) 0 = c := by
  simp [rd]

theorem rd_at (a : List Char) (c : Char) (r : List Char) (p : Nat) (hp : p = a.length) :
    rd (a ++ c :: r) p = c := by
  rw [rd_append_right a (c :: r) p 0 (by omega), rd_cons_zero]

theorem wr_at (a : List Char) (c : Char) (r : List Char) (p : Nat) (hp : p = a.length)
    (d : Char) : wr (a ++ c :: r) p d = a ++ d :: r := by
  subst hp
  simp [wr]

theorem drop_at (a b : List Char) (p : Nat) (hp : p = a.length) : (a ++ b).drop p = b := by
  subst hp
  simp

theorem takeWhile_run (f : Char → Bool) (s r : List Char) (hs : ∀ c ∈ s, f c = true)
    (hr : ∀ c, r.head? = some c → f c = false) : (s ++ r).takeWhile f = s := by
  induction s with
  | nil =>
    cases r with
    | nil => rfl
    | cons c r => simp [List.takeWhile, hr c (by simp)]
  | cons c s ih =>
    have hc : f c = true := hs c (by simp)
    have ih1 := ih (fun d hd => hs d (by simp [hd]))
    simp [List.takeWhile_cons, hc, ih1]

theorem NUL_ne_space : NUL ≠ ' ' := by decide

theorem NUL_ne_tab : NUL ≠ '\t' := by decide

theorem cstr_at (a s r : List Char) (p : Nat) (hp : p = a.length)
    (hs : ∀ c ∈ s, c ≠ NUL) (hr : ∀ c, r.head? = some c → c = NUL) :
    cstr (a ++ (s ++ r)) p = s := by
  unfold cstr
  rw [drop_at a _ p hp]
  apply takeWhile_run
  · intro c hc; simpa using hs c hc
  · intro c hc; simp [hr c hc]

theorem rd_head (r : List Char) : rd r 0 = r.head?.getD NUL := by
  cases r <;> simp [rd]

theorem rd_at2 (a b r : List Char) (p : Nat) (hp : p = a.length + b.length) :
    rd (a ++ (b ++ r)) p = rd r 0 := by
  rw [← List.append_assoc]
  exact rd_append_right (a ++ b) r p 0 (by simp [hp])

theorem rd_at3 (a b c r : List Char) (p : Nat) (hp : p = a.length + b.length + c.length) :
    rd (a ++ (b ++ (c ++ r))) p = rd r 0 := by
  rw [← List.append_assoc b c r]
  exact rd_at2 a (b ++ c) r p (by simp [hp]; omega)

theorem drop_at2 (a b r : List Char) (p : Nat) (hp : p = a.length + b.length) :
    (a ++ (b ++ r)).drop p = r := by
  rw [← List.append_assoc]
  exact drop_at (a ++ b) r p (by simp [hp])

theorem wr_at3 (a b c : List Char) (d : Char) (r : List Char) (p : Nat)
    (hp : p = a.length + b.length + c.length) (x : Char) :
    wr (a ++ (b ++ (c ++ d :: r))) p x = a ++ (b ++ (c ++ x :: r)) := by
  have h := wr_at (a ++ (b ++ c)) d r p (by simp [hp]; omega) x
  simpa [List.append_assoc] using h

theorem word_head_ne (t r : List Char) (ht : is_word t) :
    rd (t ++ r) 0 ≠ NUL ∧ rd (t ++ r) 0 ≠ ' ' ∧ rd (t ++ r) 0 ≠ '\t' := by
  obtain ⟨hne, hall⟩ := ht
  cases t with
  | nil => exact absurd rfl hne
  | cons c t => simpa [rd] using hall c (by simp)

theorem blanks_word_head_ne (w t r : List Char) (hw : is_blanks w) (ht : is_word t) :
    rd (w ++ (t ++ r)) 0 ≠ NUL := by
  cases w with
  | nil => exact (word_head_ne t r ht).1
  | cons c w =>
    have h := hw c (by simp)
    rcases h with h | h <;> simp [rd, h, NUL]

theorem strspn_blanks (a w t r : List Char) (p : Nat) (hp : p = a.length)
    (hw : is_blanks w) (ht : is_word t) :
    strspn (a ++ (w ++ (t ++ r))) p splitters = w.length := by
  unfold strspn
  rw [drop_at a _ p hp, takeWhile_run _ w (t ++ r)]
  · intro c hc
    rcases hw c hc with h | h <;> subst h <;> decide
  · intro c hc
    have h := word_head_ne t r ht
    rw [rd_head, hc] at h
    simp only [Option.getD_some] at h
    simp [splitters, h.2.1, h.2.2]

theorem strcspn_word (a t r : List Char) (p : Nat) (hp : p = a.length) (ht : is_word t)
    (hr : ∀ c, r.head? = some c → c = NUL ∨ c = ' ' ∨ c = '\t') :
    strcspn (a ++ (t ++ r)) p splitters = t.length := by
  unfold strcspn
  rw [drop_at a _ p hp, takeWhile_run _ t r]
  · intro c hc
    have h := ht.2 c hc
    simp [splitters, h.1, h.2.1, h.2.2]
  · intro c hc
    rcases hr c hc with h | h | h <;> subst h <;> decide

/-- What `strtok` does when a token stands at the saved position, after a run
of blanks, and the text ends right after the token. -/
theorem strtok_last (a w t r : List Char) (s : Option Nat) (olds : Nat)
    (hs : s.getD olds = a.length) (hw : is_blanks w) (ht : is_word t)
    (hr : rd r 0 = NUL) :
    strtok (a ++ (w ++ (t ++ r))) s splitters olds =
      (some (a.length + w.length), a ++ (w ++ (t ++ r)), a.length + w.length + t.length) := by
  have hr1 : ∀ c, r.head? = some c → c = NUL ∨ c = ' ' ∨ c = '\t' := by
    intro c hc
    rw [rd_head, hc] at hr
    exact Or.inl hr
  unfold strtok
  simp only [hs]
  rw [rd_append_right a _ a.length 0 rfl, if_neg (blanks_word_head_ne w t r hw ht),
    strspn_blanks a w t r a.length rfl hw ht, rd_at2 a w (t ++ r) _ rfl,
    if_neg (word_head_ne t r ht).1]
  have h1 : strcspn (a ++ (w ++ (t ++ r))) (a.length + w.length) splitters = t.length := by
    have := strcspn_word (a ++ w) t r (a.length + w.length) (by simp) ht hr1
    simpa [List.append_assoc] using this
  rw [h1, rd_at3 a w t r _ rfl, if_pos hr]

/-- What `strtok` does when a token stands at the saved position, after a run
of blanks, and a blank follows the token: the blank is overwritten with NUL. -/
theorem strtok_inner (a w t : List Char) (d : Char) (r : List Char) (s : Option Nat)
    (olds : Nat) (hs : s.getD olds = a.length) (hw : is_blanks w) (ht : is_word t)
    (hd : d = ' ' ∨ d = '\t') :
    strtok (a ++ (w ++ (t ++ d :: r))) s splitters olds =
      (some (a.length + w.length), a ++ (w ++ (t ++ NUL :: r)),
        a.length + w.length + t.length + 1) := by
  have hr1 : ∀ c, (d :: r).head? = some c → c = NUL ∨ c = ' ' ∨ c = '\t' := by
    intro c hc
    simp only [List.head?_cons, Option.some.injEq] at hc
    subst hc
    exact Or.inr hd
  have hd0 : d ≠ NUL := by
    rcases hd with h | h <;> subst h <;> decide
  unfold strtok
  simp only [hs]
  rw [rd_append_right a _ a.length 0 rfl, if_neg (blanks_word_head_ne w t _ hw ht),
    strspn_blanks a w t _ a.length rfl hw ht, rd_at2 a w (t ++ d :: r) _ rfl,
    if_neg (word_head_ne t _ ht).1]
  have h1 : strcspn (a ++ (w ++ (t ++ d :: r))) (a.length + w.length) splitters = t.length := by
    have := strcspn_word (a ++ w) t (d :: r) (a.length + w.length) (by simp) ht hr1
    simpa [List.append_assoc] using this
  rw [h1, rd_at3 a w t (d :: r) _ rfl, rd_cons_zero, if_neg hd0, wr_at3 a w t d r _ rfl]

/-- What `strtok` does when only blanks are left before the terminator. -/
theorem strtok_none (a w r : List Char) (s : Option Nat) (olds : Nat)
    (hs : s.getD olds = a.length) (hw : is_blanks w) (hr : rd r 0 = NUL) :
    ∃ q, strtok (a ++ (w ++ r)) s splitters olds = (none, a ++ (w ++ r), q) ∧
      rd (a ++ (w ++ r)) q = NUL := by
  unfold strtok
  simp only [hs]
  by_cases h0 : rd (a ++ (w ++ r)) a.length = NUL
  · exact ⟨a.length, by rw [if_pos h0], h0⟩
  · rw [if_neg h0]
    have h1 : strspn (a ++ (w ++ r)) a.length splitters = w.length := by
      unfold strspn
      rw [drop_at a _ _ rfl, takeWhile_run _ w r]
      · intro c hc
        rcases hw c hc with h | h <;> subst h <;> decide
      · intro c hc
        rw [rd_head, hc] at hr
        simp only [Option.getD_some] at hr
        subst hr
        decide
    rw [h1]
    have h2 : rd (a ++ (w ++ r)) (a.length + w.length) = NUL := by
      rw [rd_at2 a w r _ rfl]; exact hr
    exact ⟨a.length + w.length, by rw [if_pos h2], h2⟩

theorem strtok_at_nul (mem : List Char) (s : Option Nat) (delim : CStr) (olds : Nat)
    (h : rd mem (s.getD olds) = NUL) :
    strtok mem s delim olds = (none, mem, s.getD olds) := by
  unfold strtok
  simp only [h, if_true]

theorem rd_wr_nul (mem : List Char) (p q : Nat) (h : rd mem q = NUL) :
    rd (wr mem p NUL) q = NUL := by
  unfold rd wr at *
  rw [List.getD_eq_getElem?_getD] at *
  rw [List.getElem?_set]
  by_cases hpq : p = q
  · subst hpq
    by_cases hlt : p < mem.length
    · simp [hlt]
    · simp [hlt]
  · simpa [hpq] using h

/-! ## The head of parse_command on a well-formed line -/

theorem blank_strchr (c : Char) (h : c = ' ' ∨ c = '\t') : strchr splitters c = true := by
  rcases h with h | h <;> subst h <;> decide

theorem word_strchr (c : Char) (h : c ≠ NUL ∧ c ≠ ' ' ∧ c ≠ '\t') :
    strchr splitters c = false := by
  simp [strchr, splitters, h.1, h.2.1, h.2.2]

theorem trim_left_blanks (a lead : List Char) (x : Char) (r : List Char) (n : Nat)
    (hl : is_blanks lead) (hx : x ≠ NUL ∧ x ≠ ' ' ∧ x ≠ '\t') :
    ∀ (p : Nat), p = a.length →
      trim_left (a ++ (lead ++ x :: r)) p (lead.length + (n + 1)) = (p + lead.length, n + 1) := by
  induction lead generalizing a with
  | nil =>
    intro p hp
    simp only [List.length_nil, Nat.zero_add, List.nil_append, Nat.add_zero]
    unfold trim_left
    rw [rd_at a x r p hp, word_strchr x hx]
    simp
  | cons c lead ih =>
    intro p hp
    have hc : c = ' ' ∨ c = '\t' := hl c (by simp)
    have e1 : (c :: lead).length + (n + 1) = (lead.length + (n + 1)) + 1 := by
      simp only [List.length_cons]; omega
    rw [e1]
    unfold trim_left
    rw [List.cons_append, rd_at a c _ p hp, blank_strchr c hc]
    simp only [if_true]
    have e2 : a ++ c :: (lead ++ x :: r) = (a ++ [c]) ++ (lead ++ x :: r) := by simp
    rw [e2, ih (a ++ [c]) (fun d hd => hl d (by simp [hd])) (p + 1) (by simp [hp])]
    simp only [List.length_cons]
    congr 1
    omega

theorem trim_left_all (a lead : List Char) (r : List Char) (hl : is_blanks lead) :
    ∀ (p : Nat), p = a.length →
      trim_left (a ++ (lead ++ r)) p lead.length = (p + lead.length, 0) := by
  induction lead generalizing a with
  | nil =>
    intro p _
    simp [trim_left]
  | cons c lead ih =>
    intro p hp
    have hc : c = ' ' ∨ c = '\t' := hl c (by simp)
    simp only [List.length_cons]
    unfold trim_left
    rw [List.cons_append, rd_at a c _ p hp, blank_strchr c hc]
    simp only [if_true]
    have e2 : a ++ c :: (lead ++ r) = (a ++ [c]) ++ (lead ++ r) := by simp
    rw [e2, ih (a ++ [c]) (fun d hd => hl d (by simp [hd])) (p + 1) (by simp [hp])]
    congr 1
    omega

theorem trim_right_blanks (a body : List Char) (x : Char)
    (hx : x ≠ NUL ∧ x ≠ ' ' ∧ x ≠ '\t') (trail : List Char) :
    ∀ (r : List Char), is_blanks trail →
      trim_right a.length (a ++ (body ++ x :: (trail ++ r))) (body.length + 1 + trail.length) =
        (a ++ (body ++ x :: (List.replicate trail.length NUL ++ r)), body.length + 1) := by
  induction trail using List.reverseRecOn with
  | nil =>
    intro r _
    simp only [List.length_nil, Nat.add_zero, List.nil_append, List.replicate_zero]
    unfold trim_right
    have h : rd (a ++ (body ++ x :: r)) (a.length + body.length) = x := by
      have := rd_at (a ++ body) x r (a.length + body.length) (by simp)
      simpa [List.append_assoc] using this
    rw [h, word_strchr x hx]
    simp
  | append_singleton trail c ih =>
    intro r hl
    have hc : c = ' ' ∨ c = '\t' := hl c (by simp)
    have hl1 : is_blanks trail := fun d hd => hl d (by simp [hd])
    have e1 : body.length + 1 + (trail ++ [c]).length = (body.length + 1 + trail.length) + 1 := by
      simp; omega
    rw [e1]
    unfold trim_right
    have e2 : a ++ (body ++ x :: (trail ++ [c] ++ r)) = (a ++ (body ++ x :: trail)) ++ c :: r := by
      simp [List.append_assoc]
    have hlen : a.length + (body.length + 1 + trail.length) = (a ++ (body ++ x :: trail)).length := by
      simp; omega
    rw [e2, rd_at _ c r _ hlen, blank_strchr c hc, wr_at _ c r _ hlen]
    simp only [if_true]
    have e3 : (a ++ (body ++ x :: trail)) ++ NUL :: r = a ++ (body ++ x :: (trail ++ NUL :: r)) := by
      simp [List.append_assoc]
    rw [e3, ih (NUL :: r) hl1]
    have e4 : List.replicate (trail ++ [c]).length NUL ++ r
        = List.replicate trail.length NUL ++ NUL :: r := by
      rw [List.length_append, List.length_singleton, List.replicate_add]
      simp [List.append_assoc]
    rw [e4]

theorem last_byte_snoc (l : List Char) (x : Char) : last_byte (l ++ [x]) = x := by
  simp [last_byte]

theorem word_snoc (t : List Char) (ht : is_word t) :
    ∃ init x, t = init ++ [x] ∧ (x ≠ NUL ∧ x ≠ ' ' ∧ x ≠ '\t') := by
  obtain ⟨hne, hall⟩ := ht
  obtain ⟨x, hx⟩ := Option.isSome_iff_exists.mp (List.getLast?_isSome.mpr hne)
  obtain ⟨init, hinit⟩ := List.getLast?_eq_some_iff.mp hx
  exact ⟨init, x, hinit, hall x (by simp [hinit])⟩

theorem raw_snoc (toks : List (CStr × CStr)) (ht : tight toks) (hne : toks ≠ []) :
    ∃ init x, raw toks = init ++ [x] ∧ (x ≠ NUL ∧ x ≠ ' ' ∧ x ≠ '\t') := by
  induction toks with
  | nil => exact absurd rfl hne
  | cons p more ih =>
    obtain ⟨w, t⟩ := p
    have htm : tight more := fun q hq => ht q (by simp [hq])
    by_cases hm : more = []
    · subst hm
      obtain ⟨init, x, hinit, hx⟩ := word_snoc t (ht (w, t) (by simp)).2.2
      exact ⟨w ++ init, x, by simp [raw, hinit], hx⟩
    · obtain ⟨init, x, hinit, hx⟩ := ih htm hm
      exact ⟨w ++ t ++ init, x, by simp [raw, hinit], hx⟩

theorem line_snoc (name : CStr) (toks : List (CStr × CStr)) (hn : is_word name)
    (ht : tight toks) :
    ∃ init x, name ++ raw toks = init ++ [x] ∧ (x ≠ NUL ∧ x ≠ ' ' ∧ x ≠ '\t') := by
  by_cases hm : toks = []
  · subst hm
    obtain ⟨init, x, hinit, hx⟩ := word_snoc name hn
    exact ⟨init, x, by simp [raw, hinit], hx⟩
  · obtain ⟨init, x, hinit, hx⟩ := raw_snoc toks ht hm
    exact ⟨name ++ init, x, by simp [hinit], hx⟩

theorem raw_no_nul (toks : List (CStr × CStr)) (ht : tight toks) :
    ∀ c ∈ raw toks, c ≠ NUL := by
  induction toks with
  | nil => intro c hc; simp [raw] at hc
  | cons p more ih =>
    obtain ⟨w, t⟩ := p
    have htm : tight more := fun q hq => ht q (by simp [hq])
    have h := ht (w, t) (by simp)
    intro c hc
    simp only [raw, List.mem_append] at hc
    rcases hc with (hc | hc) | hc
    · rcases h.1 c hc with e | e <;> subst e <;> decide
    · exact (h.2.2.2 c hc).1
    · exact ih htm c hc

theorem blanks_no_nul (w : CStr) (hw : is_blanks w) : ∀ c ∈ w, c ≠ NUL := by
  intro c hc
  rcases hw c hc with e | e <;> subst e <;> decide

theorem replicate_nul_cons (n : Nat) (r : List Char) :
    List.replicate n NUL ++ NUL :: r = NUL :: (List.replicate n NUL ++ r) := by
  induction n with
  | zero => rfl
  | succ n ih => simp [List.replicate_succ, ih]

theorem last_byte_append (x y : List Char) (hy : y ≠ []) :
    last_byte (x ++ y) = last_byte y := by
  unfold last_byte
  rw [List.getLast?_append]
  obtain ⟨v, hv⟩ := Option.isSome_iff_exists.mp (List.getLast?_isSome.mpr hy)
  simp [hv]

theorem raw_ne_nil (w t : CStr) (more : List (CStr × CStr)) (ht : is_word t) :
    raw ((w, t) :: more) ≠ [] := by
  obtain ⟨hne, _⟩ := ht
  cases t with
  | nil => exact absurd rfl hne
  | cons c t => simp [raw]

/-- Lines 93-116 on a line that has a command name: the flags follow the last
byte of the trimmed line, the name is the first token, and what is left for
the loop is the rest of the tokens. -/
theorem parse_head_line (a lead name : List Char) (toks : List (CStr × CStr))
    (trail post : List Char) (olds : Nat) (c : command_t)
    (hl : is_blanks lead) (hn : is_word name) (ht : tight toks) (htr : is_blanks trail) :
    ∃ a1 toks1,
      parse_head (a ++ (lead ++ (name ++ (raw toks ++ (trail ++ NUL :: post))))) a.length olds c =
        (((set_flags c (last_byte (name ++ raw toks))).set_name name).set_args [],
          a1 ++ (raw toks1 ++ NUL :: (List.replicate trail.length NUL ++ post)), a1.length) ∧
      loose toks1 ∧ toks1.map Prod.snd = toks.map Prod.snd ∧
      (toks1 ≠ [] → last_byte (raw toks1) = last_byte (name ++ raw toks)) := by
  obtain ⟨init, x, hbody, hx⟩ := line_snoc name toks hn ht
  -- the length of the line
  have hlen : strlen (a ++ (lead ++ (name ++ (raw toks ++ (trail ++ NUL :: post))))) a.length =
      lead.length + (init.length + 1 + trail.length) := by
    unfold strlen
    have e : a ++ (lead ++ (name ++ (raw toks ++ (trail ++ NUL :: post)))) =
        a ++ ((lead ++ (init ++ [x]) ++ trail) ++ NUL :: post) := by
      rw [← hbody]; simp [List.append_assoc]
    rw [e, cstr_at a _ (NUL :: post) a.length rfl]
    · simp; omega
    · have hb : ∀ d ∈ init ++ [x], d ≠ NUL := by
        intro d hd
        rw [← hbody, List.mem_append] at hd
        rcases hd with hd | hd
        · exact (hn.2 d hd).1
        · exact raw_no_nul toks ht d hd
      intro d hd
      rw [List.mem_append, List.mem_append] at hd
      rcases hd with (hd | hd) | hd
      · exact blanks_no_nul lead hl d hd
      · exact hb d hd
      · exact blanks_no_nul trail htr d hd
    · intro d hd; simpa using hd.symm
  -- the first byte of the name
  obtain ⟨n0, nrest, hname⟩ : ∃ n0 nrest, name = n0 :: nrest := by
    obtain ⟨hne, _⟩ := hn
    cases name with
    | nil => exact absurd rfl hne
    | cons n0 nrest => exact ⟨n0, nrest, rfl⟩
  have hn0 : n0 ≠ NUL ∧ n0 ≠ ' ' ∧ n0 ≠ '\t' := hn.2 n0 (by simp [hname])
  have hleft : trim_left (a ++ (lead ++ (name ++ (raw toks ++ (trail ++ NUL :: post))))) a.length
      (lead.length + (init.length + 1 + trail.length)) =
      (a.length + lead.length, init.length + 1 + trail.length) := by
    have e : a ++ (lead ++ (name ++ (raw toks ++ (trail ++ NUL :: post)))) =
        a ++ (lead ++ n0 :: (nrest ++ (raw toks ++ (trail ++ NUL :: post)))) := by
      simp [hname]
    have e2 : init.length + 1 + trail.length = (init.length + trail.length) + 1 := by omega
    rw [e, e2]
    exact trim_left_blanks a lead n0 _ _ hl hn0 a.length rfl
  have hright : trim_right (a.length + lead.length)
      (a ++ (lead ++ (name ++ (raw toks ++ (trail ++ NUL :: post)))))
      (init.length + 1 + trail.length) =
      (a ++ (lead ++ (name ++ (raw toks ++ NUL :: (List.replicate trail.length NUL ++ post)))),
        init.length + 1) := by
    have e : a ++ (lead ++ (name ++ (raw toks ++ (trail ++ NUL :: post)))) =
        (a ++ lead) ++ (init ++ x :: (trail ++ NUL :: post)) := by
      have : name ++ (raw toks ++ (trail ++ NUL :: post)) =
          (name ++ raw toks) ++ (trail ++ NUL :: post) := by simp
      rw [this, hbody]; simp [List.append_assoc]
    have e3 : a ++ (lead ++ (name ++ (raw toks ++ NUL :: (List.replicate trail.length NUL ++ post)))) =
        (a ++ lead) ++ (init ++ x :: (List.replicate trail.length NUL ++ NUL :: post)) := by
      have : name ++ (raw toks ++ NUL :: (List.replicate trail.length NUL ++ post)) =
          (name ++ raw toks) ++ NUL :: (List.replicate trail.length NUL ++ post) := by simp
      rw [this, hbody, replicate_nul_cons]; simp [List.append_assoc]
    have hlen2 : a.length + lead.length = (a ++ lead).length := by simp
    rw [e, e3, hlen2]
    exact trim_right_blanks (a ++ lead) init x hx trail (NUL :: post) htr
  have hlast : rd (a ++ (lead ++ (name ++ (raw toks ++ NUL :: (List.replicate trail.length NUL ++ post)))))
      (a.length + lead.length + (init.length + 1) - 1) = x := by
    have e3 : a ++ (lead ++ (name ++ (raw toks ++ NUL :: (List.replicate trail.length NUL ++ post)))) =
        (a ++ lead ++ init) ++ x :: (NUL :: (List.replicate trail.length NUL ++ post)) := by
      have : name ++ (raw toks ++ NUL :: (List.replicate trail.length NUL ++ post)) =
          (name ++ raw toks) ++ NUL :: (List.replicate trail.length NUL ++ post) := by simp
      rw [this, hbody]; simp [List.append_assoc]
    rw [e3]
    exact rd_at _ x _ _ (by simp; omega)
  have hlb : last_byte (name ++ raw toks) = x := by rw [hbody, last_byte_snoc]
  unfold parse_head
  simp only [hlen, hleft, hright, hlast, hlb]
  have hflags : (if init.length + 1 > 0 ∧ x = '&' then
        (if init.length + 1 > 0 ∧ x = '?' then c.set_auto_complete true else c).set_background true
      else (if init.length + 1 > 0 ∧ x = '?' then c.set_auto_complete true else c)) =
      set_flags c x := by
    simp [set_flags]
  rw [hflags]
  cases toks with
  | nil =>
    have hs := strtok_last (a ++ lead) [] name (NUL :: (List.replicate trail.length NUL ++ post))
      (some (a.length + lead.length)) olds (by simp) (by intro d hd; simp at hd) hn
      (by simp [rd])
    have e : a ++ (lead ++ (name ++ (raw [] ++ NUL :: (List.replicate trail.length NUL ++ post)))) =
        (a ++ lead) ++ ([] ++ (name ++ NUL :: (List.replicate trail.length NUL ++ post))) := by
      simp [raw]
    rw [e, hs]
    refine ⟨a ++ lead ++ name, [], ?_, trivial, rfl, fun h => absurd rfl h⟩
    simp only [List.nil_append, List.length_nil, Nat.add_zero, raw]
    have hc : cstr ((a ++ lead) ++ (name ++ NUL :: (List.replicate trail.length NUL ++ post)))
        (a ++ lead).length = name :=
      cstr_at (a ++ lead) name _ _ rfl (fun d hd => (hn.2 d hd).1) (by intro d hd; simpa using hd.symm)
    rw [hc]
    simp [List.append_assoc, Nat.add_assoc]
  | cons p more =>
    obtain ⟨w, t⟩ := p
    have hp := ht (w, t) (by simp)
    have htm : tight more := fun q hq => ht q (by simp [hq])
    obtain ⟨d, w1, hw⟩ : ∃ d w1, w = d :: w1 := by
      cases w with
      | nil => exact absurd rfl hp.2.1
      | cons d w1 => exact ⟨d, w1, rfl⟩
    subst hw
    have hd : d = ' ' ∨ d = '\t' := hp.1 d (by simp)
    have hw1 : is_blanks w1 := fun q hq => hp.1 q (by simp [hq])
    have hs := strtok_inner (a ++ lead) [] name d
      (w1 ++ (t ++ (raw more ++ NUL :: (List.replicate trail.length NUL ++ post))))
      (some (a.length + lead.length)) olds (by simp) (by intro d hd; simp at hd) hn hd
    have e : a ++ (lead ++ (name ++ (raw ((d :: w1, t) :: more) ++
          NUL :: (List.replicate trail.length NUL ++ post)))) =
        (a ++ lead) ++ ([] ++ (name ++ d ::
          (w1 ++ (t ++ (raw more ++ NUL :: (List.replicate trail.length NUL ++ post)))))) := by
      simp [raw, List.append_assoc]
    rw [e, hs]
    refine ⟨a ++ lead ++ name ++ [NUL], (w1, t) :: more, ?_, ⟨hw1, hp.2.2, htm⟩, rfl, ?_⟩
    · simp only [List.nil_append, List.length_nil, Nat.add_zero]
      have hc : cstr ((a ++ lead) ++ (name ++ NUL ::
            (w1 ++ (t ++ (raw more ++ NUL :: (List.replicate trail.length NUL ++ post))))))
          (a ++ lead).length = name :=
        cstr_at (a ++ lead) name _ _ rfl (fun d hd => (hn.2 d hd).1)
          (by intro d hd; simpa using hd.symm)
      rw [hc]
      simp [raw, List.append_assoc, Nat.add_assoc]
    · intro _
      have e1 : name ++ raw ((d :: w1, t) :: more) = (name ++ [d]) ++ raw ((w1, t) :: more) := by
        simp [raw, List.append_assoc]
      rw [← hlb, e1, last_byte_append _ _ (raw_ne_nil w1 t more hp.2.2)]

/-- Lines 93-116 on a line made of blanks only: the name is empty and neither
flag is touched. -/
theorem parse_head_blank (a lead r : List Char) (olds : Nat) (c : command_t)
    (hl : is_blanks lead) (hr : rd r 0 = NUL) :
    parse_head (a ++ (lead ++ r)) a.length olds c =
        ((c.set_name []).set_args [], a ++ (lead ++ r), a.length + lead.length) ∧
      rd (a ++ (lead ++ r)) (a.length + lead.length) = NUL := by
  have hr1 : ∀ d, r.head? = some d → d = NUL := by
    intro d hd
    rw [rd_head, hd] at hr
    exact hr
  have hlen : strlen (a ++ (lead ++ r)) a.length = lead.length := by
    unfold strlen
    rw [cstr_at a lead r a.length rfl (blanks_no_nul lead hl) hr1]
  have hnul : rd (a ++ (lead ++ r)) (a.length + lead.length) = NUL := by
    rw [rd_at2 a lead r _ rfl]; exact hr
  refine ⟨?_, hnul⟩
  unfold parse_head
  simp only [hlen, trim_left_all a lead r hl a.length rfl]
  have h0 : trim_right (a.length + lead.length) (a ++ (lead ++ r)) 0 = (a ++ (lead ++ r), 0) := by
    unfold trim_right; rfl
  simp only [h0]
  rw [strtok_at_nul _ _ _ _ (by simpa using hnul)]
  simp

theorem arg_trim_left_word (t : CStr) (ht : is_word t) : arg_trim_left t = t := by
  obtain ⟨hne, hall⟩ := ht
  cases t with
  | nil => exact absurd rfl hne
  | cons c t =>
    unfold arg_trim_left
    rw [word_strchr c (hall c (by simp))]
    simp

theorem arg_trim_right_word (t : CStr) (ht : is_word t) : arg_trim_right t = t := by
  obtain ⟨init, x, hinit, hx⟩ := word_snoc t ht
  subst hinit
  unfold arg_trim_right
  rw [List.reverse_append, List.reverse_singleton, List.singleton_append]
  unfold arg_trim_left
  rw [word_strchr x hx]
  simp

theorem parse_loop_at_nul (fresh : Nat → command_t) (fuel depth : Nat) (mem : List Char)
    (olds : Nat) (c : command_t) (k : Nat) (h : rd mem olds = NUL) :
    parse_loop fresh (fuel + 1) depth mem olds c k = Parsed.done (c.set_arg_count k) mem olds := by
  unfold parse_loop
  rw [strtok_at_nul mem none splitters olds (by simpa using h)]
  simp

/-- One `strtok(NULL, splitters)` of the loop when a token is left. -/
theorem strtok_step (a w t : List Char) (more : List (CStr × CStr)) (post : List Char)
    (hl : loose ((w, t) :: more)) :
    ∃ a1 toks1 mem1,
      strtok (a ++ (raw ((w, t) :: more) ++ NUL :: post)) none splitters a.length =
        (some (a.length + w.length), mem1, a1.length) ∧
      mem1 = a1 ++ (raw toks1 ++ NUL :: post) ∧
      cstr mem1 (a.length + w.length) = t ∧
      loose toks1 ∧ toks1.map Prod.snd = more.map Prod.snd ∧
      (toks1 ≠ [] → last_byte (raw toks1) = last_byte (raw ((w, t) :: more))) := by
  obtain ⟨hw, ht, hm⟩ := hl
  cases more with
  | nil =>
    refine ⟨a ++ w ++ t, [], a ++ (w ++ (t ++ NUL :: post)), ?_, ?_, ?_, trivial, rfl,
      fun h => absurd rfl h⟩
    · have hs := strtok_last a w t (NUL :: post) none a.length (by simp) hw ht (by simp [rd])
      simp only [raw, List.append_nil, List.append_assoc]
      rw [hs]
      simp [Nat.add_assoc]
    · simp [raw, List.append_assoc]
    · have := cstr_at (a ++ w) t (NUL :: post) (a.length + w.length) (by simp)
        (fun d hd => (ht.2 d hd).1) (by intro d hd; simpa using hd.symm)
      simpa [List.append_assoc] using this
  | cons p more2 =>
    obtain ⟨w2, t2⟩ := p
    have hp := hm (w2, t2) (by simp)
    have htm : tight more2 := fun q hq => hm q (by simp [hq])
    obtain ⟨d, w1, hw2⟩ : ∃ d w1, w2 = d :: w1 := by
      cases w2 with
      | nil => exact absurd rfl hp.2.1
      | cons d w1 => exact ⟨d, w1, rfl⟩
    subst hw2
    have hd : d = ' ' ∨ d = '\t' := hp.1 d (by simp)
    have hw1 : is_blanks w1 := fun q hq => hp.1 q (by simp [hq])
    refine ⟨a ++ w ++ t ++ [NUL], (w1, t2) :: more2,
      a ++ (w ++ (t ++ NUL :: (w1 ++ (t2 ++ (raw more2 ++ NUL :: post))))), ?_, ?_, ?_,
      ⟨hw1, hp.2.2, htm⟩, rfl, ?_⟩
    · have hs := strtok_inner a w t d (w1 ++ (t2 ++ (raw more2 ++ NUL :: post))) none a.length
        (by simp) hw ht hd
      simp only [raw, List.append_assoc, List.cons_append]
      rw [hs]
      simp [Nat.add_assoc]
    · simp [raw, List.append_assoc]
    · have := cstr_at (a ++ w) t (NUL :: (w1 ++ (t2 ++ (raw more2 ++ NUL :: post))))
        (a.length + w.length) (by simp)
        (fun d hd => (ht.2 d hd).1) (by intro d hd; simpa using hd.symm)
      simpa [List.append_assoc] using this
    · intro _
      have e1 : raw ((w, t) :: (d :: w1, t2) :: more2) = (w ++ t ++ [d]) ++ raw ((w1, t2) :: more2) := by
        simp [raw, List.append_assoc]
      rw [e1, last_byte_append _ _ (raw_ne_nil w1 t2 more2 hp.2.2)]

/-! ## The parser read token by token (spec.md 4.2) -/

theorem word_length_ne (t : CStr) (ht : is_word t) : t.length ≠ 0 := by
  obtain ⟨hne, _⟩ := ht
  cases t with
  | nil => exact absurd rfl hne
  | cons c t => simp

/-- One iteration of the loop on a token that is stored. -/
theorem parse_loop_store (fresh : Nat → command_t) (f depth : Nat) (mem : List Char)
    (olds : Nat) (c : command_t) (k pch : Nat) (mem1 : List Char) (olds1 : Nat) (t : CStr)
    (hs : strtok mem none splitters olds = (some pch, mem1, olds1))
    (hc : cstr mem1 pch = t) (ht : is_word t) (hp : t ≠ ['|']) (ha : t ≠ ['&'])
    (hb : t.length < temp_buf_size) :
    parse_loop fresh (f + 1) depth mem olds c k =
      parse_loop fresh f depth mem1 olds1 (store_token c k t).1 (store_token c k t).2 := by
  have hfit : ¬temp_buf_size < t.length + 1 := by omega
  rw [parse_loop, hs]
  dsimp only
  rw [hc, if_neg hfit, arg_trim_left_word t ht, arg_trim_right_word t ht,
    if_neg (word_length_ne t ht), if_neg (word_length_ne t ht), if_neg hp, if_neg ha]

/-- One iteration of the loop on the token `&`. -/
theorem parse_loop_amp (fresh : Nat → command_t) (f depth : Nat) (mem : List Char)
    (olds : Nat) (c : command_t) (k pch : Nat) (mem1 : List Char) (olds1 : Nat)
    (hs : strtok mem none splitters olds = (some pch, mem1, olds1))
    (hc : cstr mem1 pch = ['&']) :
    parse_loop fresh (f + 1) depth mem olds c k =
      parse_loop fresh f depth mem1 olds1 c k := by
  have ht : is_word ['&'] := by decide
  have hfit : ¬temp_buf_size < ['&'].length + 1 := by decide
  rw [parse_loop, hs]
  dsimp only
  rw [hc, if_neg hfit, arg_trim_left_word _ ht, arg_trim_right_word _ ht,
    if_neg (word_length_ne _ ht), if_neg (word_length_ne _ ht), if_neg (by decide), if_pos rfl]

/-- One iteration of the loop on the token `|`. -/
theorem parse_loop_pipe (fresh : Nat → command_t) (f depth : Nat) (mem : List Char)
    (olds : Nat) (c : command_t) (k pch : Nat) (mem1 : List Char) (olds1 : Nat)
    (hs : strtok mem none splitters olds = (some pch, mem1, olds1))
    (hc : cstr mem1 pch = ['|']) :
    parse_loop fresh (f + 1) depth mem olds c k =
      match parse_loop fresh f (depth + 1)
          (parse_head (wr mem1 (pch + 1) ' ')
            (pch + skip_blanks (wr mem1 (pch + 1) ' ') pch) olds1 (fresh depth)).2.1
          (parse_head (wr mem1 (pch + 1) ' ')
            (pch + skip_blanks (wr mem1 (pch + 1) ' ') pch) olds1 (fresh depth)).2.2
          (parse_head (wr mem1 (pch + 1) ' ')
            (pch + skip_blanks (wr mem1 (pch + 1) ' ') pch) olds1 (fresh depth)).1 0 with
      | Parsed.out_of_fuel => Parsed.out_of_fuel
      | Parsed.overflow => Parsed.overflow
      | Parsed.done c2 mem2 olds2 =>
        parse_loop fresh f depth (wr mem2 (pch + 1) NUL) olds2 (c.set_next (some c2)) k := by
  have ht : is_word ['|'] := by decide
  have hl : strlen mem1 pch = 1 := by unfold strlen; rw [hc]; rfl
  have hfit : ¬temp_buf_size < ['|'].length + 1 := by decide
  rw [parse_loop, hs]
  dsimp only
  rw [hc, if_neg hfit, arg_trim_left_word _ ht, arg_trim_right_word _ ht,
    if_neg (word_length_ne _ ht), if_neg (word_length_ne _ ht), if_pos rfl, hl]

theorem getLast?_cons_some (y : CStr) (l : List CStr) (x : CStr) (h : l.getLast? = some x) :
    (y :: l).getLast? = some x := by
  cases l with
  | nil => simp at h
  | cons z l => rw [List.getLast?_cons_cons]; exact h

theorem map_snd_length (toks1 more : List (CStr × CStr))
    (h : toks1.map Prod.snd = more.map Prod.snd) : toks1.length = more.length := by
  have := congrArg List.length h
  simpa using this

theorem skip_blanks_run (a : List Char) (x : Char) (s r : List Char) (pch : Nat)
    (hp : pch + 1 = (a ++ [x]).length) (hs : is_blanks s) (hr : rd r 0 ≠ ' ' ∧ rd r 0 ≠ '\t') :
    skip_blanks (a ++ (x :: (s ++ r))) pch = 1 + s.length := by
  unfold skip_blanks
  have e : a ++ (x :: (s ++ r)) = (a ++ [x]) ++ (s ++ r) := by simp
  rw [e, drop_at (a ++ [x]) _ _ hp, takeWhile_run _ s r]
  · intro c hc
    rcases hs c hc with h | h <;> subst h <;> decide
  · intro c hc
    rw [rd_head, hc] at hr
    simp only [Option.getD_some] at hr
    simp [hr.1, hr.2]

theorem loop_spec_store (fresh : Nat → command_t) (last : Char) (t : CStr) (ts : List CStr)
    (depth : Nat) (c : command_t) (k : Nat) (hp : t ≠ ['|']) (ha : t ≠ ['&']) :
    loop_spec fresh last (t :: ts) depth c k =
      loop_spec fresh last ts depth (store_token c k t).1 (store_token c k t).2 := by
  cases ts <;> simp [loop_spec, hp, ha]

theorem loop_spec_amp (fresh : Nat → command_t) (last : Char) (ts : List CStr)
    (depth : Nat) (c : command_t) (k : Nat) :
    loop_spec fresh last (['&'] :: ts) depth c k = loop_spec fresh last ts depth c k := by
  cases ts <;> simp [loop_spec]

theorem skip_blanks_run2 (a w : List Char) (x : Char) (s r : List Char)
    (hs : is_blanks s) (hr : rd r 0 ≠ ' ' ∧ rd r 0 ≠ '\t') :
    skip_blanks (a ++ (w ++ (x :: (s ++ r)))) (a.length + w.length) = 1 + s.length := by
  have e : a ++ (w ++ (x :: (s ++ r))) = (a ++ w) ++ (x :: (s ++ r)) := by simp
  rw [e]
  exact skip_blanks_run (a ++ w) x s r _ (by simp [Nat.add_assoc]) hs hr

theorem fits_cons (t : CStr) (ts : List CStr) :
    fits_temp_buf (t :: ts) =
      (decide (t.length < temp_buf_size) &&
        (if t = ['|'] then
          (match ts with
            | [] => true
            | _ :: ts1 => fits_temp_buf ts1)
        else fits_temp_buf ts)) := by
  cases ts <;> rfl

theorem fits_head (t : CStr) (ts : List CStr) (h : fits_temp_buf (t :: ts) = true) :
    t.length < temp_buf_size := by
  rw [fits_cons, Bool.and_eq_true, decide_eq_true_eq] at h
  exact h.1

theorem fits_pipe (n : CStr) (ts : List CStr) (h : fits_temp_buf (['|'] :: n :: ts) = true) :
    fits_temp_buf ts = true := by
  rw [fits_cons, Bool.and_eq_true, if_pos rfl] at h
  exact h.2

theorem fits_token (t : CStr) (ts : List CStr) (hp : t ≠ ['|'])
    (h : fits_temp_buf (t :: ts) = true) : fits_temp_buf ts = true := by
  rw [fits_cons, Bool.and_eq_true, if_neg hp] at h
  exact h.2

/-- It is enough that every token after the first command name is shorter than
`temp_buf`. -/
theorem fits_of_all_short :
    ∀ (n : Nat) (ws : List CStr), ws.length = n → (∀ t ∈ ws, t.length < temp_buf_size) →
      fits_temp_buf ws = true := by
  intro n
  induction n using Nat.strong_induction_on with
  | _ n ih =>
    intro ws hn h
    cases ws with
    | nil => rfl
    | cons t ts =>
      have ht := h t (by simp)
      rw [fits_cons, Bool.and_eq_true, decide_eq_true_eq]
      refine ⟨ht, ?_⟩
      by_cases hp : t = ['|']
      · rw [if_pos hp]
        cases ts with
        | nil => rfl
        | cons n1 ts1 =>
          exact ih ts1.length (by rw [← hn]; simp; omega) ts1 rfl
            (fun q hq => h q (by simp [hq]))
      · rw [if_neg hp]
        exact ih ts.length (by rw [← hn]; simp) ts rfl (fun q hq => h q (by simp [hq]))

/-- The token loop computes `loop_spec`: on the text of tokens `toks` that
starts at the saved position, with enough fuel, the loop returns the command
`loop_spec` describes and leaves `strtok` at a NUL. -/
theorem parse_loop_words (fresh : Nat → command_t) :
    ∀ (n : Nat) (toks : List (CStr × CStr)), toks.length = n → loose toks →
    ∀ (fuel : Nat), toks.length < fuel →
    ∀ (a post : List Char) (depth : Nat) (c : command_t) (k : Nat) (last : Char),
      ((toks.map Prod.snd).getLast? = some ['|'] → rd post 0 = NUL) →
      (toks ≠ [] → last_byte (raw toks) = last) →
      fits_temp_buf (toks.map Prod.snd) = true →
      ∃ mem1 olds1,
        parse_loop fresh fuel depth (a ++ (raw toks ++ NUL :: post)) a.length c k =
          Parsed.done (loop_spec fresh last (toks.map Prod.snd) depth c k) mem1 olds1 ∧
        rd mem1 olds1 = NUL := by
  intro n
  induction n using Nat.strong_induction_on with
  | _ n ih =>
    intro toks hn hl fuel hf a post depth c k last hpost hlast hb
    obtain ⟨f, rfl⟩ : ∃ f, fuel = f + 1 := ⟨fuel - 1, by omega⟩
    cases toks with
    | nil =>
      have h0 : rd (a ++ (raw [] ++ NUL :: post)) a.length = NUL := by
        simp only [raw, List.nil_append]
        exact rd_at a NUL post _ rfl
      exact ⟨_, _, by rw [parse_loop_at_nul fresh f depth _ _ c k h0]; rfl, h0⟩
    | cons p more =>
      obtain ⟨w, t⟩ := p
      have hw : is_blanks w := hl.1
      have ht : is_word t := hl.2.1
      have hm : tight more := hl.2.2
      by_cases hpipe : t = ['|']
      · subst hpipe
        cases more with
        | nil =>
          have hp0 : rd post 0 = NUL := hpost (by simp)
          have hs := strtok_last a w ['|'] (NUL :: post) none a.length (by simp) hw ht
            (by simp [rd])
          have hmem : a ++ (raw [(w, ['|'])] ++ NUL :: post) = a ++ (w ++ (['|'] ++ NUL :: post)) := by
            simp [raw]
          have hc : cstr (a ++ (w ++ (['|'] ++ NUL :: post))) (a.length + w.length) = ['|'] := by
            have := cstr_at (a ++ w) ['|'] (NUL :: post) (a.length + w.length) (by simp)
              (by decide) (by intro d hd; simpa using hd.symm)
            simpa [List.append_assoc] using this
          have hwr : wr (a ++ (w ++ (['|'] ++ NUL :: post))) (a.length + w.length + 1) ' ' =
              a ++ (w ++ (['|'] ++ ' ' :: post)) :=
            wr_at3 a w ['|'] NUL post _ rfl ' '
          have hskip : skip_blanks (a ++ (w ++ (['|'] ++ ' ' :: post))) (a.length + w.length) = 2 := by
            have hb : is_blanks [' '] := by decide
            exact skip_blanks_run2 a w '|' [' '] post hb
              (by rw [hp0]; exact ⟨by decide, by decide⟩)
          have hhead := parse_head_blank (a ++ (w ++ (['|'] ++ [' ']))) [] post
            (a.length + w.length + ['|'].length) (fresh depth) (by intro d hd; simp at hd) hp0
          have hl2 : (a ++ (w ++ (['|'] ++ [' ']))).length = a.length + w.length + 2 := by
            simp; omega
          have hm2 : (a ++ (w ++ (['|'] ++ [' ']))) ++ ([] ++ post) =
              a ++ (w ++ (['|'] ++ ' ' :: post)) := by simp [List.append_assoc]
          rw [hl2, hm2] at hhead
          obtain ⟨f1, rfl⟩ : ∃ f1, f = f1 + 1 := ⟨f - 1, by simp at hf; omega⟩
          rw [hmem, parse_loop_pipe fresh (f1 + 1) depth _ _ c k _ _ _ hs hc, hwr, hskip,
            hhead.1]
          dsimp only
          simp only [List.length_nil, Nat.add_zero] at hhead ⊢
          rw [parse_loop_at_nul fresh f1 (depth + 1) _ _ _ 0 hhead.2]
          dsimp only
          have h3 := rd_wr_nul _ (a.length + w.length + 1) _ hhead.2
          rw [parse_loop_at_nul fresh f1 depth _ _ _ k h3]
          exact ⟨_, _, by simp [loop_spec], h3⟩
        | cons p2 more2 =>
          obtain ⟨w2, t2⟩ := p2
          have hp2 := hm (w2, t2) (by simp)
          have htm : tight more2 := fun q hq => hm q (by simp [hq])
          obtain ⟨d, w1, hw2⟩ : ∃ d w1, w2 = d :: w1 := by
            cases w2 with
            | nil => exact absurd rfl hp2.2.1
            | cons d w1 => exact ⟨d, w1, rfl⟩
          subst hw2
          have hd : d = ' ' ∨ d = '\t' := hp2.1 d (by simp)
          have hw1 : is_blanks w1 := fun q hq => hp2.1 q (by simp [hq])
          have hs := strtok_inner a w ['|'] d (w1 ++ (t2 ++ (raw more2 ++ NUL :: post))) none
            a.length (by simp) hw ht hd
          have hmem : a ++ (raw ((w, ['|']) :: (d :: w1, t2) :: more2) ++ NUL :: post) =
              a ++ (w ++ (['|'] ++ d :: (w1 ++ (t2 ++ (raw more2 ++ NUL :: post))))) := by
            simp [raw, List.append_assoc]
          have hc : cstr (a ++ (w ++ (['|'] ++ NUL :: (w1 ++ (t2 ++ (raw more2 ++ NUL :: post))))))
              (a.length + w.length) = ['|'] := by
            have := cstr_at (a ++ w) ['|'] (NUL :: (w1 ++ (t2 ++ (raw more2 ++ NUL :: post))))
              (a.length + w.length) (by simp) (by decide) (by intro d hd; simpa using hd.symm)
            simpa [List.append_assoc] using this
          have hwr : wr (a ++ (w ++ (['|'] ++ NUL :: (w1 ++ (t2 ++ (raw more2 ++ NUL :: post))))))
              (a.length + w.length + 1) ' ' =
              a ++ (w ++ (['|'] ++ ' ' :: (w1 ++ (t2 ++ (raw more2 ++ NUL :: post))))) :=
            wr_at3 a w ['|'] NUL _ _ rfl ' '
          have hskip : skip_blanks
              (a ++ (w ++ (['|'] ++ ' ' :: (w1 ++ (t2 ++ (raw more2 ++ NUL :: post))))))
              (a.length + w.length) = 1 + (w1.length + 1) := by
            exact skip_blanks_run2 a w '|' (' ' :: w1) (t2 ++ (raw more2 ++ NUL :: post))
              (by
                intro q hq
                rcases List.mem_cons.mp hq with h | h
                · exact Or.inl h
                · exact hw1 q h)
              (word_head_ne t2 _ hp2.2.2).2
          obtain ⟨a1, toks1, hhead, hloose, hmap, hlb⟩ :=
            parse_head_line (a ++ (w ++ (['|'] ++ ' ' :: w1))) [] t2 more2 [] post
              (a.length + w.length + ['|'].length + 1) (fresh depth)
              (by intro q hq; simp at hq) hp2.2.2 htm (by intro q hq; simp at hq)
          have hl2 : (a ++ (w ++ (['|'] ++ ' ' :: w1))).length =
              a.length + w.length + (1 + (w1.length + 1)) := by
            simp; omega
          have hm2 : (a ++ (w ++ (['|'] ++ ' ' :: w1))) ++ ([] ++ (t2 ++ (raw more2 ++ ([] ++ NUL :: post)))) =
              a ++ (w ++ (['|'] ++ ' ' :: (w1 ++ (t2 ++ (raw more2 ++ NUL :: post))))) := by
            simp [List.append_assoc]
          rw [hl2, hm2] at hhead
          simp only [List.length_nil, List.replicate_zero, List.nil_append] at hhead
          have hlast2 : last_byte (t2 ++ raw more2) = last := by
            rw [← hlast (by simp)]
            have e1 : raw ((w, ['|']) :: (d :: w1, t2) :: more2) =
                (w ++ ['|'] ++ d :: w1) ++ (t2 ++ raw more2) := by
              simp [raw, List.append_assoc]
            rw [e1]
            refine (last_byte_append _ _ ?_).symm
            intro h
            have := congrArg List.length h
            simp at this
            exact word_length_ne t2 hp2.2.2 (by rw [this.1]; rfl)
          have hlen1 : toks1.length = more2.length := map_snd_length toks1 more2 hmap
          obtain ⟨f1, rfl⟩ : ∃ f1, f = f1 + 1 := ⟨f - 1, by simp at hf; omega⟩
          obtain ⟨mem3, olds3, hinner, hnul3⟩ :=
            ih toks1.length (by rw [hlen1, ← hn]; simp; omega) toks1 rfl hloose (f1 + 1)
              (by rw [hlen1]; simp at hf; omega) a1 post (depth + 1)
              (((set_flags (fresh depth) (last_byte (t2 ++ raw more2))).set_name t2).set_args [])
              0 last
              (by
                intro h
                apply hpost
                rw [hmap] at h
                simp only [List.map_cons]
                exact getLast?_cons_some _ _ _ (getLast?_cons_some _ _ _ h))
              (by intro h; rw [hlb h, hlast2])
              (by rw [hmap]; exact fits_pipe t2 _ hb)
          rw [hmem, parse_loop_pipe fresh (f1 + 1) depth _ _ c k _ _ _ hs hc, hwr, hskip, hhead]
          dsimp only
          rw [hinner]
          dsimp only
          have h3 := rd_wr_nul mem3 (a.length + w.length + 1) olds3 hnul3
          rw [parse_loop_at_nul fresh f1 depth _ _ _ k h3]
          refine ⟨_, _, ?_, h3⟩
          simp [loop_spec, hmap, hlast2]
      · obtain ⟨a1, toks1, mem1, hs, hmem1, hc, hloose, hmap, hlb⟩ :=
          strtok_step a w t more post hl
        have hlen1 : toks1.length = more.length := map_snd_length toks1 more hmap
        have hpost1 : (toks1.map Prod.snd).getLast? = some ['|'] → rd post 0 = NUL := by
          intro h
          apply hpost
          rw [hmap] at h
          simp only [List.map_cons]
          exact getLast?_cons_some _ _ _ h
        have hlast1 : toks1 ≠ [] → last_byte (raw toks1) = last := by
          intro h
          rw [hlb h]
          exact hlast (by simp)
        have hb1 : fits_temp_buf (toks1.map Prod.snd) = true := by
          rw [hmap]; exact fits_token t _ hpipe hb
        have hbt : t.length < temp_buf_size := fits_head t _ hb
        by_cases hamp : t = ['&']
        · subst hamp
          obtain ⟨mem3, olds3, hinner, hnul3⟩ :=
            ih toks1.length (by rw [hlen1, ← hn]; simp) toks1 rfl hloose f
              (by rw [hlen1]; simp at hf; omega) a1 post depth c k last hpost1 hlast1 hb1
          rw [parse_loop_amp fresh f depth _ _ c k _ _ _ hs hc, hmem1, hinner]
          exact ⟨_, _, by rw [List.map_cons, loop_spec_amp, hmap], hnul3⟩
        · obtain ⟨mem3, olds3, hinner, hnul3⟩ :=
            ih toks1.length (by rw [hlen1, ← hn]; simp) toks1 rfl hloose f
              (by rw [hlen1]; simp at hf; omega) a1 post depth (store_token c k t).1
              (store_token c k t).2 last hpost1 hlast1 hb1
          rw [parse_loop_store fresh f depth _ _ c k _ _ _ t hs hc ht hpipe hamp hbt, hmem1,
            hinner]
          exact ⟨_, _, by rw [List.map_cons, loop_spec_store _ _ _ _ _ _ _ hpipe hamp, hmap], hnul3⟩

/-! ## The whole chain is the one `loop_spec` describes -/

theorem tight_length_le (toks : List (CStr × CStr)) (ht : tight toks) :
    toks.length ≤ (raw toks).length := by
  induction toks with
  | nil => simp
  | cons p more ih =>
    obtain ⟨w, t⟩ := p
    have h := ih (fun q hq => ht q (by simp [hq]))
    have hw := word_length_ne t (ht (w, t) (by simp)).2.2
    simp only [raw, List.length_cons, List.length_append]
    omega

/-- The whole chain `parse_command` builds is the one `loop_spec` describes,
for every line with a command name that does not end in a `|` followed
directly by bytes that were never part of the line. -/
theorem parse_command_chain (fresh : Nat → command_t) (c0 : command_t)
    (lead name : List Char) (toks : List (CStr × CStr)) (trail post : List Char)
    (hl : is_blanks lead) (hn : is_word name) (ht : tight toks) (htr : is_blanks trail)
    (hb : fits_temp_buf (toks.map Prod.snd) = true)
    (hpost : (toks.map Prod.snd).getLast? = some ['|'] → trail ≠ [] ∨ rd post 0 = NUL) :
    parse_command fresh (lead ++ (name ++ (raw toks ++ (trail ++ NUL :: post)))) c0 =
      some (loop_spec fresh (last_byte (name ++ raw toks)) (toks.map Prod.snd) 0
        (((set_flags c0 (last_byte (name ++ raw toks))).set_name name).set_args []) 0) := by
  obtain ⟨a1, toks1, hhead, hloose, hmap, hlb⟩ :=
    parse_head_line [] lead name toks trail post 0 c0 hl hn ht htr
  simp only [List.nil_append, List.length_nil] at hhead
  have hlen1 : toks1.length = toks.length := map_snd_length toks1 toks hmap
  have hlen2 := tight_length_le toks ht
  obtain ⟨m1, o1, he, _⟩ :=
    parse_loop_words fresh toks1.length toks1 rfl hloose
      ((lead ++ (name ++ (raw toks ++ (trail ++ NUL :: post)))).length + 1)
      (by rw [hlen1]; simp only [List.length_append]; omega) a1
      (List.replicate trail.length NUL ++ post) 0
      (((set_flags c0 (last_byte (name ++ raw toks))).set_name name).set_args []) 0
      (last_byte (name ++ raw toks))
      (by
        intro h
        rw [hmap] at h
        rcases hpost h with h1 | h1
        · cases trail with
          | nil => exact absurd rfl h1
          | cons x xs => simp [rd, List.replicate_succ]
        · cases trail with
          | nil => simpa using h1
          | cons x xs => simp [rd, List.replicate_succ])
      hlb (by rw [hmap]; exact hb)
  unfold parse_command parse_command_fuel
  rw [hhead]
  dsimp only
  rw [he, hmap]

/-- A token of `temp_buf_size` bytes or more right after the command name: the
`strcpy` of line 128 writes past the end of `temp_buf` and `parse_command`
gives no command. -/
theorem long_token_overflows (fresh : Nat → command_t) (c0 : command_t)
    (lead name w t : List Char) (more : List (CStr × CStr)) (trail post : List Char)
    (hl : is_blanks lead) (hn : is_word name) (ht : tight ((w, t) :: more))
    (htr : is_blanks trail) (hover : temp_buf_size ≤ t.length) :
    parse_command fresh (lead ++ (name ++ (raw ((w, t) :: more) ++ (trail ++ NUL :: post)))) c0 =
      none := by
  obtain ⟨a1, toks1, hhead, hloose, hmap, _⟩ :=
    parse_head_line [] lead name ((w, t) :: more) trail post 0 c0 hl hn ht htr
  simp only [List.nil_append, List.length_nil] at hhead
  cases toks1 with
  | nil => simp at hmap
  | cons p more1 =>
    obtain ⟨w1, t1⟩ := p
    simp only [List.map_cons, List.cons.injEq] at hmap
    obtain ⟨ht1, _⟩ := hmap
    subst ht1
    obtain ⟨a2, toks2, mem2, hs, _, hc, _⟩ :=
      strtok_step a1 w1 t1 more1 (List.replicate trail.length NUL ++ post) hloose
    have hfit : temp_buf_size < t1.length + 1 := by omega
    unfold parse_command parse_command_fuel
    rw [hhead]
    dsimp only
    rw [parse_loop, hs]
    dsimp only
    rw [hc, if_pos hfit]

/-- A line that ends in a `|` right before its terminator: line 147 overwrites
the terminator, and the recursive call parses the bytes that follow the line in
the buffer.  After `ls -l /tmp`, the line `ls |` gives a second command named
`/tmp`. -/
theorem dangling_pipe_reads_stale_bytes :
    ∃ c nd, parse_command (fun _ => zero_command)
        ("ls |".toList ++ NUL :: " /tmp".toList ++ [NUL]) zero_command = some c ∧
      c.name = "ls".toList ∧ c.next = some nd ∧ nd.name = "/tmp".toList :=
  ⟨_, _, rfl, rfl, rfl, rfl⟩

/-! ## The loop ends on every block -/

theorem wr_length (mem : List Char) (p : Nat) (c : Char) : (wr mem p c).length = mem.length := by
  simp [wr]

theorem rd_lt (mem : List Char) (p : Nat) (h : rd mem p ≠ NUL) : p < mem.length := by
  by_contra hge
  apply h
  unfold rd
  rw [List.getD_eq_getElem?_getD, List.getElem?_eq_none (by omega)]
  rfl

/-- `strtok` keeps the size of the block, never moves its saved position
backwards, stops at a NUL when it finds no token, and a token it returns
starts at or after the starting position and before the new saved position. -/
theorem strtok_facts (mem : List Char) (s : Option Nat) (delim : CStr) (olds : Nat) :
    (strtok mem s delim olds).2.1.length = mem.length ∧
    s.getD olds ≤ (strtok mem s delim olds).2.2 ∧
    ((strtok mem s delim olds).1 = none →
      rd (strtok mem s delim olds).2.1 (strtok mem s delim olds).2.2 = NUL) ∧
    (∀ pch, (strtok mem s delim olds).1 = some pch →
      s.getD olds ≤ pch ∧ pch < (strtok mem s delim olds).2.2 ∧ pch < mem.length) := by
  unfold strtok
  dsimp only
  by_cases h0 : rd mem (s.getD olds) = NUL
  · rw [if_pos h0]
    exact ⟨rfl, Nat.le_refl _, fun _ => h0, fun pch h => by simp at h⟩
  · rw [if_neg h0]
    by_cases h1 : rd mem (s.getD olds + strspn mem (s.getD olds) delim) = NUL
    · rw [if_pos h1]
      exact ⟨rfl, Nat.le_add_right _ _, fun _ => h1, fun pch h => by simp at h⟩
    · rw [if_neg h1]
      have hlt := rd_lt mem _ h1
      by_cases h2 : rd mem (s.getD olds + strspn mem (s.getD olds) delim +
          strcspn mem (s.getD olds + strspn mem (s.getD olds) delim) delim) = NUL
      · rw [if_pos h2]
        refine ⟨rfl, by simp only; omega, fun h => by simp at h, ?_⟩
        intro pch hp
        simp only [Option.some.injEq] at hp
        subst hp
        refine ⟨Nat.le_add_right _ _, ?_, hlt⟩
        by_contra hge
        have e : strcspn mem (s.getD olds + strspn mem (s.getD olds) delim) delim = 0 := by
          simp only at hge; omega
        rw [e, Nat.add_zero] at h2
        exact h1 h2
      · rw [if_neg h2]
        refine ⟨by simp [wr_length], by simp only; omega, fun h => by simp at h, ?_⟩
        intro pch hp
        simp only [Option.some.injEq] at hp
        subst hp
        exact ⟨Nat.le_add_right _ _, by simp only; omega, hlt⟩

theorem trim_left_ge (mem : List Char) (len : Nat) :
    ∀ buf, buf ≤ (trim_left mem buf len).1 := by
  induction len with
  | zero => intro buf; simp [trim_left]
  | succ len ih =>
    intro buf
    unfold trim_left
    by_cases h : strchr splitters (rd mem buf) = true
    · rw [if_pos h]
      exact Nat.le_trans (Nat.le_succ buf) (ih (buf + 1))
    · rw [if_neg h]

theorem trim_right_length (buf : Nat) (len : Nat) :
    ∀ mem, (trim_right buf mem len).1.length = mem.length := by
  induction len with
  | zero => intro mem; simp [trim_right]
  | succ len ih =>
    intro mem
    unfold trim_right
    by_cases h : strchr splitters (rd mem (buf + len)) = true
    · rw [if_pos h, ih, wr_length]
    · rw [if_neg h]

/-- `parse_head` keeps the size of the block and leaves `strtok` at or after `buf`. -/
theorem parse_head_facts (mem : List Char) (buf olds : Nat) (c : command_t) :
    (parse_head mem buf olds c).2.1.length = mem.length ∧
    buf ≤ (parse_head mem buf olds c).2.2 := by
  unfold parse_head
  dsimp only
  have hl := trim_left_ge mem (strlen mem buf) buf
  have hr := trim_right_length (trim_left mem buf (strlen mem buf)).1
    (trim_left mem buf (strlen mem buf)).2 mem
  have hs := strtok_facts
    (trim_right (trim_left mem buf (strlen mem buf)).1 mem (trim_left mem buf (strlen mem buf)).2).1
    (some (trim_left mem buf (strlen mem buf)).1) splitters olds
  revert hs
  cases hst : strtok
    (trim_right (trim_left mem buf (strlen mem buf)).1 mem (trim_left mem buf (strlen mem buf)).2).1
    (some (trim_left mem buf (strlen mem buf)).1) splitters olds with
  | mk r rest =>
    obtain ⟨m2, o2⟩ := rest
    intro hs
    simp only [Option.getD_some] at hs
    cases r with
    | none => exact ⟨by rw [← hr]; exact hs.1, Nat.le_trans hl hs.2.1⟩
    | some pch => exact ⟨by rw [← hr]; exact hs.1, Nat.le_trans hl hs.2.1⟩

theorem skip_blanks_pos (mem : List Char) (pch : Nat) : 1 ≤ skip_blanks mem pch := by
  unfold skip_blanks
  omega

/-- With more fuel than bytes left after the saved position the loop does not
run out of fuel, on any block: a token overflows `temp_buf`, or the loop ends
with a command, keeps the size of the block, does not move the saved position
backwards and leaves it at a NUL. -/
theorem parse_loop_total (fresh : Nat → command_t) :
    ∀ (fuel depth : Nat) (mem : List Char) (olds : Nat) (c : command_t) (k : Nat),
      mem.length - olds < fuel →
      parse_loop fresh fuel depth mem olds c k = Parsed.overflow ∨
      ∃ c1 mem1 olds1, parse_loop fresh fuel depth mem olds c k = Parsed.done c1 mem1 olds1 ∧
        mem1.length = mem.length ∧ olds ≤ olds1 ∧ rd mem1 olds1 = NUL := by
  intro fuel
  induction fuel with
  | zero => intro depth mem olds c k h; omega
  | succ f ih =>
    intro depth mem olds c k hf
    have hs := strtok_facts mem none splitters olds
    rw [parse_loop]
    revert hs
    cases hst : strtok mem none splitters olds with
    | mk r rest =>
      obtain ⟨m1, o1⟩ := rest
      intro hs
      simp only [Option.getD_none] at hs
      obtain ⟨hlen, hle, hnone, hsome⟩ := hs
      cases r with
      | none => exact Or.inr ⟨_, _, _, rfl, hlen, hle, hnone rfl⟩
      | some pch =>
        obtain ⟨h1, h2, h3⟩ := hsome pch rfl
        have hf1 : m1.length - o1 < f := by omega
        have hstep : ∀ (c1 : command_t) (k1 : Nat),
            parse_loop fresh f depth m1 o1 c1 k1 = Parsed.overflow ∨
            ∃ c2 mem2 olds2, parse_loop fresh f depth m1 o1 c1 k1 = Parsed.done c2 mem2 olds2 ∧
              mem2.length = mem.length ∧ olds ≤ olds2 ∧ rd mem2 olds2 = NUL := by
          intro c1 k1
          rcases ih depth m1 o1 c1 k1 hf1 with he | ⟨c2, mem2, olds2, he, hl2, ho2, hn2⟩
          · exact Or.inl he
          · exact Or.inr ⟨c2, mem2, olds2, he, by omega, by omega, hn2⟩
        dsimp only
        by_cases hfit : temp_buf_size < (cstr m1 pch).length + 1
        · rw [if_pos hfit]; exact Or.inl rfl
        · rw [if_neg hfit]
          by_cases ha : (cstr m1 pch).length = 0
          · rw [if_pos ha]; exact hstep c k
          · rw [if_neg ha]
            by_cases hb : (arg_trim_right (arg_trim_left (cstr m1 pch))).length = 0
            · rw [if_pos hb]; exact hstep c k
            · rw [if_neg hb]
              by_cases hp : arg_trim_right (arg_trim_left (cstr m1 pch)) = ['|']
              · rw [if_pos hp]
                have hph := parse_head_facts (wr m1 (pch + strlen m1 pch) ' ')
                  (pch + skip_blanks (wr m1 (pch + strlen m1 pch) ' ') pch) o1 (fresh depth)
                have hsk := skip_blanks_pos (wr m1 (pch + strlen m1 pch) ' ') pch
                revert hph
                cases hhd : parse_head (wr m1 (pch + strlen m1 pch) ' ')
                  (pch + skip_blanks (wr m1 (pch + strlen m1 pch) ' ') pch) o1 (fresh depth) with
                | mk c2 rest2 =>
                  obtain ⟨m3, o3⟩ := rest2
                  intro hph
                  simp only [wr_length] at hph
                  dsimp only
                  rcases ih (depth + 1) m3 o3 c2 0 (by omega) with
                    he4 | ⟨c4, m4, o4, he4, hl4, ho4, _⟩
                  · rw [he4]; exact Or.inl rfl
                  · rw [he4]
                    dsimp only
                    rcases ih depth (wr m4 (pch + strlen m1 pch) NUL) o4 (c.set_next (some c4)) k
                        (by rw [wr_length]; omega) with he5 | ⟨c5, m5, o5, he5, hl5, ho5, hn5⟩
                    · exact Or.inl he5
                    · rw [wr_length] at hl5
                      exact Or.inr ⟨c5, m5, o5, he5, by omega, by omega, hn5⟩
              · rw [if_neg hp]
                by_cases hq : arg_trim_right (arg_trim_left (cstr m1 pch)) = ['&']
                · rw [if_pos hq]; exact hstep c k
                · rw [if_neg hq]; exact hstep _ _

/-- The iteration bound `parse_command` gives the loop is never reached: on
every block and every initial command the call ends with a command or with an
overflow of `temp_buf`. -/
theorem parse_command_never_out_of_fuel (fresh : Nat → command_t) (mem : List Char)
    (c0 : command_t) :
    parse_command_fuel fresh (mem.length + 1) 0 mem 0 0 c0 = Parsed.overflow ∨
      ∃ c mem1 olds1, parse_command_fuel fresh (mem.length + 1) 0 mem 0 0 c0 =
        Parsed.done c mem1 olds1 := by
  unfold parse_command_fuel
  have hph := parse_head_facts mem 0 0 c0
  revert hph
  cases hhd : parse_head mem 0 0 c0 with
  | mk c2 rest2 =>
    obtain ⟨m3, o3⟩ := rest2
    intro hph
    dsimp only
    rcases parse_loop_total fresh (mem.length + 1) 0 m3 o3 c2 0
        (by simp only at hph; omega) with he | ⟨c4, m4, o4, he4, _, _, _⟩
    · exact Or.inl he
    · exact Or.inr ⟨c4, m4, o4, he4⟩

/-- `parse_command` gives no command exactly when a token overflowed `temp_buf`. -/
theorem parse_command_none_iff (fresh : Nat → command_t) (mem : List Char) (c0 : command_t) :
    parse_command fresh mem c0 = none ↔
      parse_command_fuel fresh (mem.length + 1) 0 mem 0 0 c0 = Parsed.overflow := by
  unfold parse_command
  rcases parse_command_never_out_of_fuel fresh mem c0 with h | ⟨c, m, o, h⟩
  · rw [h]; simp
  · rw [h]; simp

/-! ## One stage: the tokens before the first pipe -/

theorem set_next_none_pipe (c : command_t) (x : Option command_t) (k : Nat) :
    ((c.set_next x).set_arg_count k).set_next none = (c.set_arg_count k).set_next none := by
  cases c; rfl

theorem head_tokens_pipe (ts : List CStr) : head_tokens (['|'] :: ts) = [] := by
  simp [head_tokens]

theorem head_tokens_cons (t : CStr) (ts : List CStr) (h : t ≠ ['|']) :
    head_tokens (t :: ts) = t :: head_tokens ts := by
  simp [head_tokens, h]

/-- The head node `loop_spec` builds is, `next` apart, what `fold_tokens` makes
of the tokens before the first `|`. -/
theorem loop_spec_stage (fresh : Nat → command_t) (last : Char) :
    ∀ (ws : List CStr) (depth : Nat) (c : command_t) (k : Nat),
      (loop_spec fresh last ws depth c k).set_next none =
        ((fold_tokens c k (head_tokens ws)).1.set_arg_count
          (fold_tokens c k (head_tokens ws)).2).set_next none := by
  intro ws
  induction ws with
  | nil => intro depth c k; rfl
  | cons t ts ih =>
    intro depth c k
    by_cases hpipe : t = ['|']
    · subst hpipe
      rw [head_tokens_pipe]
      cases ts <;> simp only [loop_spec, if_true, fold_tokens] <;>
        exact set_next_none_pipe c _ k
    · rw [head_tokens_cons t ts hpipe]
      by_cases hamp : t = ['&']
      · subst hamp
        rw [loop_spec_amp, ih]
        simp [fold_tokens]
      · rw [loop_spec_store _ _ _ _ _ _ _ hpipe hamp, ih]
        simp [fold_tokens, hamp]

/-! ## What a token does, in the words of spec.md 4.2 -/

theorem strip_quotes_eq (t : CStr) : strip_quotes t = unquote_spec t := by
  unfold strip_quotes unquote_spec
  have e1 : (t.take (t.length - 1)).drop 1 = t.tail.dropLast := by
    rw [List.dropLast_eq_take, List.drop_one, List.length_tail]
    cases t with
    | nil => rfl
    | cons c l =>
      cases l with
      | nil => rfl
      | cons d l => simp
  simp only [List.get?_eq_getElem?, ← List.head?_eq_getElem?, ← List.getLast?_eq_getElem?, e1]

theorem store_token_in (c : command_t) (k : Nat) (r : CStr) :
    store_token c k ('<' :: r) = (c.set_redirect 0 r, k) := by
  simp [store_token, redirect_index]

theorem store_token_append (c : command_t) (k : Nat) (r : CStr) :
    store_token c k ('>' :: '>' :: r) = (c.set_redirect 2 r, k) := by
  simp [store_token, redirect_index]

theorem store_token_trunc (c : command_t) (k : Nat) (r : CStr) (h : r.head? ≠ some '>') :
    store_token c k ('>' :: r) = (c.set_redirect 1 r, k) := by
  cases r with
  | nil => simp [store_token, redirect_index]
  | cons d r =>
    have hd : d ≠ '>' := by simpa using h
    simp [store_token, redirect_index, hd]

theorem store_token_normal (c : command_t) (k : Nat) (t : CStr)
    (h1 : t.head? ≠ some '<') (h2 : t.head? ≠ some '>') :
    store_token c k t = (c.set_args (c.args ++ [unquote_spec t]), k + 1) := by
  simp [store_token, redirect_index, h1, h2, strip_quotes_eq]

theorem trunc_target_some (r : CStr) (h : r.head? ≠ some '>') :
    trunc_target ('>' :: r) = some r := by
  cases r with
  | nil => rfl
  | cons d r =>
    have hd : d ≠ '>' := by simpa using h
    simp [trunc_target, hd]

/-- The four ways a token that is not `&` is stored. -/
theorem store_token_cases (t : CStr) :
    (∃ r, t = '<' :: r ∧ in_target t = some r ∧ trunc_target t = none ∧ append_target t = none ∧
        is_normal t = false) ∨
    (∃ r, t = '>' :: '>' :: r ∧ in_target t = none ∧ trunc_target t = none ∧
        append_target t = some r ∧ is_normal t = false) ∨
    (∃ r, t = '>' :: r ∧ r.head? ≠ some '>' ∧ in_target t = none ∧ trunc_target t = some r ∧
        append_target t = none ∧ is_normal t = false) ∨
    (t.head? ≠ some '<' ∧ t.head? ≠ some '>' ∧ in_target t = none ∧ trunc_target t = none ∧
        append_target t = none) := by
  cases t with
  | nil => exact Or.inr (Or.inr (Or.inr ⟨by simp, by simp, rfl, rfl, rfl⟩))
  | cons c r =>
    by_cases h1 : c = '<'
    · subst h1
      exact Or.inl ⟨r, rfl, rfl, rfl, rfl, by simp [is_normal]⟩
    · by_cases h2 : c = '>'
      · subst h2
        cases r with
        | nil =>
          exact Or.inr (Or.inr (Or.inl ⟨[], rfl, by simp, rfl, rfl, rfl, by simp [is_normal]⟩))
        | cons d r =>
          by_cases h3 : d = '>'
          · subst h3
            exact Or.inr (Or.inl ⟨r, rfl, rfl, rfl, rfl, by simp [is_normal]⟩)
          · refine Or.inr (Or.inr (Or.inl ⟨d :: r, rfl, by simpa using h3, rfl, ?_, ?_,
              by simp [is_normal]⟩))
            · exact trunc_target_some (d :: r) (by simpa using h3)
            · simp [append_target, h3]
      · refine Or.inr (Or.inr (Or.inr ⟨by simpa using h1, by simpa using h2, ?_, ?_, ?_⟩))
        · simp [in_target, h1]
        · simp [trunc_target, h2]
        · simp [append_target, h2]

theorem getLast?_cons_or (r : CStr) (l : List CStr) (x : Option CStr) :
    ((r :: l).getLast?).or x = (l.getLast?).or (some r) := by
  cases l with
  | nil => simp
  | cons d l =>
    rw [List.getLast?_cons_cons]
    obtain ⟨y, hy⟩ := Option.isSome_iff_exists.mp (List.getLast?_isSome.mpr (List.cons_ne_nil d l))
    rw [hy]
    simp

/-- The fields of a command after the tokens of one stage have been folded in. -/
theorem fold_tokens_fields (ws : List CStr) (hnp : ∀ t ∈ ws, t ≠ ['|']) :
    ∀ (c : command_t) (k : Nat),
      (fold_tokens c k ws).1.name = c.name ∧
      (fold_tokens c k ws).1.background = c.background ∧
      (fold_tokens c k ws).1.auto_complete = c.auto_complete ∧
      (fold_tokens c k ws).1.args = c.args ++ (ws.filter is_normal).map unquote_spec ∧
      (fold_tokens c k ws).2 = k + (ws.filter is_normal).length ∧
      (fold_tokens c k ws).1.redirects 0 =
        ((ws.filterMap in_target).getLast?).or (c.redirects 0) ∧
      (fold_tokens c k ws).1.redirects 1 =
        ((ws.filterMap trunc_target).getLast?).or (c.redirects 1) ∧
      (fold_tokens c k ws).1.redirects 2 =
        ((ws.filterMap append_target).getLast?).or (c.redirects 2) := by
  induction ws with
  | nil => intro c k; simp [fold_tokens]
  | cons t ts ih0 =>
    intro c k
    have ih := ih0 (fun u hu => hnp u (by simp [hu]))
    have hp : t ≠ ['|'] := hnp t (by simp)
    by_cases hamp : t = ['&']
    · subst hamp
      have h := ih c k
      have e1 : is_normal ['&'] = false := by decide
      have e2 : in_target ['&'] = none := by decide
      have e3 : trunc_target ['&'] = none := by decide
      have e4 : append_target ['&'] = none := by decide
      simpa [fold_tokens, List.filter_cons, List.filterMap_cons, e1, e2, e3, e4] using h
    · have hfold : fold_tokens c k (t :: ts) =
          fold_tokens (store_token c k t).1 (store_token c k t).2 ts := by
        simp [fold_tokens, hamp]
      rw [hfold]
      rcases store_token_cases t with ⟨r, ht, h1, h2, h3, h4⟩ | ⟨r, ht, h1, h2, h3, h4⟩ |
        ⟨r, ht, hr, h1, h2, h3, h4⟩ | ⟨ha, hb, h1, h2, h3⟩
      · have h := ih (c.set_redirect 0 r) k
        rw [ht, store_token_in, ← ht]
        simp only [List.filter_cons, List.filterMap_cons, h1, h2, h3, h4, getLast?_cons_or]
        cases c
        simpa [command_t.set_redirect, command_t.redirects, command_t.name,
          command_t.background, command_t.auto_complete, command_t.args] using h
      · have h := ih (c.set_redirect 2 r) k
        rw [ht, store_token_append, ← ht]
        simp only [List.filter_cons, List.filterMap_cons, h1, h2, h3, h4, getLast?_cons_or]
        cases c
        simpa [command_t.set_redirect, command_t.redirects, command_t.name,
          command_t.background, command_t.auto_complete, command_t.args] using h
      · have h := ih (c.set_redirect 1 r) k
        rw [ht, store_token_trunc c k r hr, ← ht]
        simp only [List.filter_cons, List.filterMap_cons, h1, h2, h3, h4, getLast?_cons_or]
        cases c
        simpa [command_t.set_redirect, command_t.redirects, command_t.name,
          command_t.background, command_t.auto_complete, command_t.args] using h
      · have h := ih (c.set_args (c.args ++ [unquote_spec t])) (k + 1)
        rw [store_token_normal c k t ha hb]
        by_cases hn : is_normal t = true
        · simp only [List.filter_cons, List.filterMap_cons, h1, h2, h3, hn, if_true,
            List.map_cons, List.length_cons]
          cases c
          simp only [command_t.set_args, command_t.redirects, command_t.name,
            command_t.background, command_t.auto_complete, command_t.args] at h ⊢
          refine ⟨h.1, h.2.1, h.2.2.1, ?_, ?_, h.2.2.2.2.2.1, h.2.2.2.2.2.2.1, h.2.2.2.2.2.2.2⟩
          · rw [h.2.2.2.1]; simp
          · rw [h.2.2.2.2.1]; omega
        · exfalso
          apply hn
          simp [is_normal, hp, hamp, ha, hb]

theorem head_tokens_no_pipe (words : List CStr) : ∀ t ∈ head_tokens words, t ≠ ['|'] := by
  intro t ht
  have := List.mem_takeWhile_imp ht
  simpa using this

/-- All fields but `next` agree. -/
theorem fields_of_stage (c1 c2 : command_t) (h : c1.set_next none = c2.set_next none) :
    c1.name = c2.name ∧ c1.background = c2.background ∧ c1.auto_complete = c2.auto_complete ∧
    c1.arg_count = c2.arg_count ∧ c1.args = c2.args ∧ ∀ i, c1.redirects i = c2.redirects i := by
  cases c1
  cases c2
  simp only [command_t.set_next, command_t.mk.injEq] at h
  obtain ⟨h1, h2, h3, h4, h5, h6, h7, h8, _⟩ := h
  subst h1 h2 h3 h4 h5 h6 h7 h8
  exact ⟨rfl, rfl, rfl, rfl, rfl, fun i => by
    match i with
    | 0 => rfl
    | 1 => rfl
    | 2 => rfl
    | _ + 3 => rfl⟩

theorem set_flags_fields (c : command_t) (x : Char) :
    (set_flags c x).auto_complete = (if x = '?' then true else c.auto_complete) ∧
    (set_flags c x).background = (if x = '&' then true else c.background) ∧
    (set_flags c x).name = c.name ∧ (set_flags c x).args = c.args ∧
    (set_flags c x).arg_count = c.arg_count ∧ (set_flags c x).next = c.next ∧
    ∀ i, (set_flags c x).redirects i = c.redirects i := by
  have hr : ∀ (d e : command_t), (d.redirects 0 = e.redirects 0) → (d.redirects 1 = e.redirects 1) →
      (d.redirects 2 = e.redirects 2) → ∀ i, d.redirects i = e.redirects i := by
    intro d e h0 h1 h2 i
    match i with
    | 0 => exact h0
    | 1 => exact h1
    | 2 => exact h2
    | _ + 3 => cases d; cases e; rfl
  cases c
  unfold set_flags
  by_cases h1 : x = '?'
  · subst h1
    have hne : ('?' : Char) ≠ '&' := by decide
    refine ⟨?_, ?_, ?_, ?_, ?_, ?_, hr _ _ ?_ ?_ ?_⟩ <;> simp only [if_true, if_neg hne] <;> rfl
  · by_cases h2 : x = '&'
    · subst h2
      have hne : ('&' : Char) ≠ '?' := by decide
      refine ⟨?_, ?_, ?_, ?_, ?_, ?_, hr _ _ ?_ ?_ ?_⟩ <;> simp only [if_true, if_neg hne] <;> rfl
    · refine ⟨?_, ?_, ?_, ?_, ?_, ?_, hr _ _ ?_ ?_ ?_⟩ <;> simp only [if_neg h1, if_neg h2]

/-- The first stage of a line, field by field.  For every line with a command
name whose further tokens each fit `temp_buf` and that does not end in a `|`
followed directly by bytes that were never part of the line, whatever the
initial command holds: the name is the first token, each flag is set when the last byte of the
trimmed line is its character and is otherwise left as it was, the arguments
are the normal tokens before the first `|` with their quotes stripped, and each
redirect slot holds the target of the last token of its kind, or what it held
before when there is none. -/
theorem parse_command_fields (fresh : Nat → command_t) (c0 : command_t)
    (lead name : List Char) (toks : List (CStr × CStr)) (trail post : List Char)
    (hl : is_blanks lead) (hn : is_word name) (ht : tight toks) (htr : is_blanks trail)
    (hb : fits_temp_buf (toks.map Prod.snd) = true)
    (hpost : (toks.map Prod.snd).getLast? = some ['|'] → trail ≠ [] ∨ rd post 0 = NUL) :
    ∃ c, parse_command fresh (lead ++ (name ++ (raw toks ++ (trail ++ NUL :: post)))) c0 = some c ∧
      c.name = name ∧
      c.auto_complete = (if last_byte (name ++ raw toks) = '?' then true else c0.auto_complete) ∧
      c.background = (if last_byte (name ++ raw toks) = '&' then true else c0.background) ∧
      c.args = ((head_tokens (toks.map Prod.snd)).filter is_normal).map unquote_spec ∧
      c.arg_count = ((head_tokens (toks.map Prod.snd)).filter is_normal).length ∧
      c.redirects 0 =
        (((head_tokens (toks.map Prod.snd)).filterMap in_target).getLast?).or (c0.redirects 0) ∧
      c.redirects 1 =
        (((head_tokens (toks.map Prod.snd)).filterMap trunc_target).getLast?).or (c0.redirects 1) ∧
      c.redirects 2 =
        (((head_tokens (toks.map Prod.snd)).filterMap append_target).getLast?).or
          (c0.redirects 2) := by
  have hc := parse_command_chain fresh c0 lead name toks trail post hl hn ht htr hb hpost
  have hs := loop_spec_stage fresh (last_byte (name ++ raw toks)) (toks.map Prod.snd) 0
    (((set_flags c0 (last_byte (name ++ raw toks))).set_name name).set_args []) 0
  obtain ⟨f1, f2, f3, f4, f5, f6⟩ := fields_of_stage _ _ hs
  obtain ⟨g1, g2, g3, g4, g5, g6, g7, g8⟩ :=
    fold_tokens_fields (head_tokens (toks.map Prod.snd)) (head_tokens_no_pipe _)
      (((set_flags c0 (last_byte (name ++ raw toks))).set_name name).set_args []) 0
  obtain ⟨s1, s2, _, _, _, _, s7⟩ := set_flags_fields c0 (last_byte (name ++ raw toks))
  have a1 : ∀ (d : command_t) (k : Nat), (d.set_arg_count k).name = d.name ∧
      (d.set_arg_count k).background = d.background ∧
      (d.set_arg_count k).auto_complete = d.auto_complete ∧
      (d.set_arg_count k).arg_count = k ∧ (d.set_arg_count k).args = d.args ∧
      ∀ i, (d.set_arg_count k).redirects i = d.redirects i := by
    intro d k
    cases d
    exact ⟨rfl, rfl, rfl, rfl, rfl, fun i => by
      match i with
      | 0 => rfl
      | 1 => rfl
      | 2 => rfl
      | _ + 3 => rfl⟩
  have a2 : ∀ (d : command_t) (n : CStr), ((d.set_name n).set_args []).name = n ∧
      ((d.set_name n).set_args []).background = d.background ∧
      ((d.set_name n).set_args []).auto_complete = d.auto_complete ∧
      ((d.set_name n).set_args []).args = [] ∧
      ∀ i, ((d.set_name n).set_args []).redirects i = d.redirects i := by
    intro d n
    cases d
    exact ⟨rfl, rfl, rfl, rfl, fun i => by
      match i with
      | 0 => rfl
      | 1 => rfl
      | 2 => rfl
      | _ + 3 => rfl⟩
  obtain ⟨b1, b2, b3, b4, b5, b6⟩ := a1
    (fold_tokens (((set_flags c0 (last_byte (name ++ raw toks))).set_name name).set_args []) 0
      (head_tokens (toks.map Prod.snd))).1
    (fold_tokens (((set_flags c0 (last_byte (name ++ raw toks))).set_name name).set_args []) 0
      (head_tokens (toks.map Prod.snd))).2
  obtain ⟨d1, d2, d3, d4, d5⟩ := a2 (set_flags c0 (last_byte (name ++ raw toks))) name
  refine ⟨_, hc, ?_, ?_, ?_, ?_, ?_, ?_, ?_, ?_⟩
  · rw [f1, b1, g1, d1]
  · rw [f3, b3, g3, d3, s1]
  · rw [f2, b2, g2, d2, s2]
  · rw [f5, b5, g4, d4]; rfl
  · rw [f4, b4, g5]; omega
  · rw [f6 0, b6 0, g6, d5 0, s7 0]
  · rw [f6 1, b6 1, g7, d5 1, s7 1]
  · rw [f6 2, b6 2, g8, d5 2, s7 2]

/-- Every line without a NUL is made of blanks only or has the shape the
theorems below quantify over: blanks, a first token, further tokens each after
blanks, and blanks. -/
theorem every_line_has_this_shape (line : List Char) (h : ∀ c ∈ line, c ≠ NUL) :
    is_blanks line ∨
      ∃ lead name toks trail, line = lead ++ (name ++ (raw toks ++ trail)) ∧
        is_blanks lead ∧ is_word name ∧ tight toks ∧ is_blanks trail := by
  induction line with
  | nil => exact Or.inl (by intro c hc; simp at hc)
  | cons c rest ih =>
    have hc : c ≠ NUL := h c (by simp)
    have hrest := ih (fun d hd => h d (by simp [hd]))
    by_cases hb : c = ' ' ∨ c = '\t'
    · rcases hrest with hr | ⟨lead, name, toks, trail, he, h1, h2, h3, h4⟩
      · left
        intro d hd
        rcases List.mem_cons.mp hd with hd | hd
        · rw [hd]; exact hb
        · exact hr d hd
      · right
        refine ⟨c :: lead, name, toks, trail, by rw [he]; rfl, ?_, h2, h3, h4⟩
        intro d hd
        rcases List.mem_cons.mp hd with hd | hd
        · rw [hd]; exact hb
        · exact h1 d hd
    · have hcw : c ≠ NUL ∧ c ≠ ' ' ∧ c ≠ '\t' :=
        ⟨hc, fun e => hb (Or.inl e), fun e => hb (Or.inr e)⟩
      have hword : is_word [c] :=
        ⟨by simp, by intro d hd; simp at hd; subst hd; exact hcw⟩
      right
      rcases hrest with hr | ⟨lead, name, toks, trail, he, h1, h2, h3, h4⟩
      · exact ⟨[], [c], [], rest, by simp [raw], by intro d hd; simp at hd, hword,
          by intro q hq; simp at hq, hr⟩
      · cases lead with
        | nil =>
          refine ⟨[], c :: name, toks, trail, by rw [he]; rfl, by intro d hd; simp at hd, ?_,
            h3, h4⟩
          refine ⟨by simp, ?_⟩
          intro d hd
          rcases List.mem_cons.mp hd with hd | hd
          · rw [hd]; exact hcw
          · exact h2.2 d hd
        | cons x lead =>
          refine ⟨[], [c], (x :: lead, name) :: toks, trail, by rw [he]; simp [raw],
            by intro d hd; simp at hd, hword, ?_, h4⟩
          intro q hq
          rcases List.mem_cons.mp hq with hq | hq
          · rw [hq]; exact ⟨h1, by simp, h2⟩
          · exact h3 q hq

/-! ## The arguments of every stage -/

/-- C9 on the code: a trailing `&` is recorded but never taken off the line.
For `make all&` the flag `background` is set and the argument stored is
`all&`; for `ls&` the character stays in the command name.  Only a `&` that is
a token of its own is dropped (lines 159-160, "handled before"): `make all &`
sets the flag and stores the argument `all`. -/
theorem trailing_ampersand_is_not_consumed :
    (∃ c, parse_command (fun _ => zero_command) ("make all&".toList ++ [NUL]) zero_command =
        some c ∧ c.background = true ∧ c.name = "make".toList ∧ c.args = ["all&".toList]) ∧
    (∃ c, parse_command (fun _ => zero_command) ("ls&".toList ++ [NUL]) zero_command = some c ∧
        c.background = true ∧ c.name = "ls&".toList ∧ c.args = []) ∧
    (∃ c, parse_command (fun _ => zero_command) ("make all &".toList ++ [NUL]) zero_command =
        some c ∧ c.background = true ∧ c.name = "make".toList ∧ c.args = ["all".toList]) :=
  ⟨⟨_, rfl, rfl, rfl, rfl⟩, ⟨_, rfl, rfl, rfl, rfl⟩, ⟨_, rfl, rfl, rfl, rfl⟩⟩

/-- The same for `?`: for the line `ls?` the flag `auto_complete` is set and
the character stays in the command name; for `ls -l?` it stays in the argument. -/
theorem trailing_question_mark_is_not_consumed :
    (∃ c, parse_command (fun _ => zero_command) ("ls?".toList ++ [NUL]) zero_command = some c ∧
        c.auto_complete = true ∧ c.name = "ls?".toList ∧ c.args = []) ∧
    (∃ c, parse_command (fun _ => zero_command) ("ls -l?".toList ++ [NUL]) zero_command = some c ∧
        c.auto_complete = true ∧ c.name = "ls".toList ∧ c.args = ["-l?".toList]) :=
  ⟨⟨_, rfl, rfl, rfl, rfl⟩, ⟨_, rfl, rfl, rfl, rfl⟩⟩

/-- The part of C9 the code does satisfy: for every line with a command name
parsed into a zero-initialised command, each flag is set exactly when the last
non-blank character of the line is its character. -/
theorem trailing_flag_is_recorded (fresh : Nat → command_t)
    (lead name : List Char) (toks : List (CStr × CStr)) (trail post : List Char)
    (hl : is_blanks lead) (hn : is_word name) (ht : tight toks) (htr : is_blanks trail)
    (hb : fits_temp_buf (toks.map Prod.snd) = true)
    (hpost : (toks.map Prod.snd).getLast? = some ['|'] → trail ≠ [] ∨ rd post 0 = NUL) :
    ∃ c, parse_command fresh (lead ++ (name ++ (raw toks ++ (trail ++ NUL :: post))))
        zero_command = some c ∧
      (c.auto_complete = true ↔ last_byte (name ++ raw toks) = '?') ∧
      (c.background = true ↔ last_byte (name ++ raw toks) = '&') := by
  obtain ⟨c, hc, _, h2, h3, _⟩ :=
    parse_command_fields fresh zero_command lead name toks trail post hl hn ht htr hb hpost
  refine ⟨c, hc, ?_, ?_⟩
  · rw [h2]
    by_cases h : last_byte (name ++ raw toks) = '?'
    · simp [h]
    · simp [h, zero_command, command_t.auto_complete]
  · rw [h3]
    by_cases h : last_byte (name ++ raw toks) = '&'
    · simp [h]
    · simp [h, zero_command, command_t.background]

/-- C7: for every line made of spaces and tabs only (the empty line included),
whatever follows it in the buffer, `parse_command` into a zero-initialised
command yields a command with the empty name, `arg_count` 0 and no next node,
and `process_command` on it returns SUCCESS and leaves the world as it was: no
call is made, in particular no `fork`. -/
theorem blank_line_is_a_no_op (fresh : Nat → command_t) (line post : List Char)
    (h : is_blanks line) :
    ∃ c, parse_command fresh (line ++ NUL :: post) zero_command = some c ∧
      c.name = [] ∧ c.arg_count = 0 ∧ c.next = none ∧
      ∀ (env : Env) (piping_input_fd : Int) (w : World),
        process_command env c piping_input_fd w = (Outcome.returned SUCCESS, w) := by
  have hh := parse_head_blank [] line (NUL :: post) 0 zero_command h (by simp [rd])
  simp only [List.nil_append, List.length_nil, Nat.zero_add] at hh
  refine ⟨((zero_command.set_name []).set_args []).set_arg_count 0, ?_, rfl, rfl, rfl, ?_⟩
  · unfold parse_command parse_command_fuel
    rw [hh.1]
    dsimp only
    rw [parse_loop_at_nul fresh _ 0 _ _ _ 0 hh.2]
  · intro env fd w
    rfl

/-- C7 at a line of two spaces and a tab, followed in the buffer by stale text. -/
theorem blank_line_is_a_no_op_witness :
    is_blanks "  \t".toList ∧
    ∃ c, parse_command (fun _ => zero_command) ("  \t".toList ++ NUL :: "old text".toList)
        zero_command = some c ∧
      c.name = [] ∧ c.arg_count = 0 ∧ c.next = none ∧
      ∀ (env : Env) (piping_input_fd : Int) (w : World),
        process_command env c piping_input_fd w = (Outcome.returned SUCCESS, w) :=
  ⟨by decide, blank_line_is_a_no_op (fun _ => zero_command) "  \t".toList "old text".toList
    (by decide)⟩

/-! ## The claims about process_command -/

theorem run_stage_not_returned (env : Env) (built_in : Bool) (name : CStr) (arg_count : Nat)
    (argv : List (Option CStr)) (command_path : CStr) (w : World) (code : Nat) :
    (run_stage env built_in name arg_count argv command_path w).1 ≠ Outcome.returned code := by
  unfold run_stage
  cases built_in with
  | true => simp
  | false =>
    simp only [Bool.false_eq_true, if_false, World.call]
    by_cases h : env.answer w.tick = -1
    · simp [h]
    · simp [h]

/-- In the process where the first `fork` answers 0, or for a name handled
without a `fork`, and in every other process as well, `process_command` never
returns UNKNOWN; it returns EXIT exactly for the name `exit`. -/
theorem piping_section_not_returned (env : Env)
    (rest : Option (Int → World → Outcome × World)) (built_in : Bool) (name : CStr)
    (arg_count : Nat) (argv : List (Option CStr)) (command_path : CStr)
    (piping_input_fd : Int) (w : World) (code : Nat) :
    (piping_section env rest built_in name arg_count argv command_path piping_input_fd w).1 ≠
      Outcome.returned code := by
  unfold piping_section
  cases rest with
  | none => exact run_stage_not_returned _ _ _ _ _ _ _ _
  | some process_next =>
    simp only [World.call]
    split
    · exact run_stage_not_returned _ _ _ _ _ _ _ _
    · split
      · simp
      · intro hout
        rename_i hx hq
        exact hx _ hout

theorem process_stage_outcome (env : Env) (c : command_t)
    (rest : Option (Int → World → Outcome × World)) (piping_input_fd : Int) (w : World) :
    (c.name = "exit".toList →
      (process_stage env c rest piping_input_fd w).1 = Outcome.returned EXIT) ∧
    (c.name ≠ "exit".toList →
      (c.name = [] ∨ (c.name = "cd".toList ∧ 0 < c.arg_count) ∨ env.answer w.tick ≠ 0) →
      (process_stage env c rest piping_input_fd w).1 = Outcome.returned SUCCESS) ∧
    (c.name ≠ "exit".toList → ∀ code,
      (process_stage env c rest piping_input_fd w).1 = Outcome.returned code → code = SUCCESS) := by
  unfold process_stage
  by_cases h1 : c.name = []
  · rw [if_pos h1]
    exact ⟨fun h => by rw [h1] at h; simp at h, fun _ _ => rfl,
      fun _ code hcode => (Outcome.returned.inj hcode).symm⟩
  · rw [if_neg h1]
    by_cases h2 : c.name = "exit".toList
    · rw [if_pos h2]
      exact ⟨fun _ => rfl, fun h => absurd h2 h, fun h => absurd h2 h⟩
    · rw [if_neg h2]
      by_cases h3 : c.name = "cd".toList ∧ c.arg_count > 0
      · rw [if_pos h3]
        exact ⟨fun h => absurd h h2, fun _ _ => rfl,
          fun _ code hcode => (Outcome.returned.inj hcode).symm⟩
      · rw [if_neg h3]
        simp only [World.call]
        by_cases h4 : env.answer w.tick = 0
        · rw [if_pos h4]
          refine ⟨fun h => absurd h h2, fun _ h => ?_, fun _ code hcode => ?_⟩
          · rcases h with h | h | h
            · exact absurd h h1
            · exact absurd h h3
            · exact absurd h4 h
          · exfalso
            revert hcode
            (repeat' split) <;>
              first
              | exact piping_section_not_returned _ _ _ _ _ _ _ _ _ _
              | (intro h; exact Outcome.noConfusion h)
        · rw [if_neg h4]
          exact ⟨fun h => absurd h h2, fun _ _ => rfl,
            fun _ code hcode => (Outcome.returned.inj hcode).symm⟩

theorem process_command_eq (env : Env) (c : command_t) :
    process_command env c =
      process_stage env c (c.next.map (fun nx => process_command env nx)) := by
  cases c with
  | mk name background auto_complete arg_count args r0 r1 r2 next =>
    cases next with
    | none => rw [process_command]; rfl
    | some nx => rw [process_command]; rfl

/-- C10: in every process, for every chain, every inherited descriptor and
every behaviour of the kernel, a value `process_command` returns is never
UNKNOWN; it is EXIT exactly when the head node is named `exit` and SUCCESS
otherwise; and the shell process (the caller when no `fork` is made, the
parent when one is) does get a value back. -/
theorem process_command_never_unknown (env : Env) (c : command_t) (piping_input_fd : Int)
    (w : World) :
    (∀ code, (process_command env c piping_input_fd w).1 = Outcome.returned code →
      code ≠ UNKNOWN ∧ (code = EXIT ↔ c.name = "exit".toList) ∧
      (c.name ≠ "exit".toList → code = SUCCESS)) ∧
    ((c.name = [] ∨ c.name = "exit".toList ∨ (c.name = "cd".toList ∧ 0 < c.arg_count) ∨
        env.answer w.tick ≠ 0) →
      (process_command env c piping_input_fd w).1 =
        Outcome.returned (if c.name = "exit".toList then EXIT else SUCCESS)) := by
  rw [process_command_eq]
  obtain ⟨h1, h2, h3⟩ :=
    process_stage_outcome env c (c.next.map (fun nx => process_command env nx)) piping_input_fd w
  constructor
  · intro code hcode
    by_cases he : c.name = "exit".toList
    · have := h1 he
      rw [this] at hcode
      have hc : EXIT = code := Outcome.returned.inj hcode
      subst hc
      exact ⟨by decide, ⟨fun _ => he, fun _ => rfl⟩, fun h => absurd he h⟩
    · have hc := h3 he code hcode
      subst hc
      exact ⟨by decide, ⟨fun h => absurd h (by decide), fun h => absurd h he⟩, fun _ => rfl⟩
  · intro h
    by_cases he : c.name = "exit".toList
    · rw [if_pos he]; exact h1 he
    · rw [if_neg he]
      apply h2 he
      rcases h with h | h | h | h
      · exact Or.inl h
      · exact absurd h he
      · exact Or.inr (Or.inl h)
      · exact Or.inr (Or.inr h)

/-- C10 at a command whose name cannot be resolved, in the shell process (the
kernel answers the `fork` with the child's pid): the value returned is SUCCESS. -/
theorem process_command_never_unknown_witness :
    (process_command shell_side_env (zero_command.set_name "nosuch".toList) 0
      { trace := [], tick := 0 }).1 = Outcome.returned SUCCESS ∧ SUCCESS ≠ UNKNOWN :=
  ⟨(process_command_never_unknown shell_side_env (zero_command.set_name "nosuch".toList) 0
      { trace := [], tick := 0 }).2 (Or.inr (Or.inr (Or.inr (by decide)))), by decide⟩

/-! ### What a process appends to the trace -/

/-- The fields of a node as the head of `parse_command` and the end of the loop
leave it. -/
theorem node_fields (d : command_t) (x : Char) (n : CStr) (k : Nat) :
    ((((set_flags d x).set_name n).set_args []).set_arg_count k).name = n ∧
    ((((set_flags d x).set_name n).set_args []).set_arg_count k).arg_count = k ∧
    ((((set_flags d x).set_name n).set_args []).set_arg_count k).args = [] ∧
    ((((set_flags d x).set_name n).set_args []).set_arg_count k).next = d.next ∧
    ((((set_flags d x).set_name n).set_args []).set_arg_count k).background =
      (if x = '&' then true else d.background) := by
  obtain ⟨_, s2, _, _, _, s6, _⟩ := set_flags_fields d x
  rw [← s2, ← s6]
  cases set_flags d x
  exact ⟨rfl, rfl, rfl, rfl, rfl⟩

theorem piped_node_fields (d : command_t) (x : Char) (n : CStr) (k : Nat) (nx : command_t) :
    (((((set_flags d x).set_name n).set_args []).set_next (some nx)).set_arg_count k).name = n ∧
    (((((set_flags d x).set_name n).set_args []).set_next (some nx)).set_arg_count k).arg_count = k ∧
    (((((set_flags d x).set_name n).set_args []).set_next (some nx)).set_arg_count k).args = [] ∧
    (((((set_flags d x).set_name n).set_args []).set_next (some nx)).set_arg_count k).next =
      some nx ∧
    (((((set_flags d x).set_name n).set_args []).set_next (some nx)).set_arg_count k).background =
      (if x = '&' then true else d.background) := by
  obtain ⟨_, s2, _, _, _, _, _⟩ := set_flags_fields d x
  rw [← s2]
  cases set_flags d x
  exact ⟨rfl, rfl, rfl, rfl, rfl⟩

/-- The part of C1 the code does satisfy: for all words `a`, `b`, `c` (`c` not
the word `|`), whatever `malloc` hands out, the line `a | b | c` gives three
nodes named `a`, `b`, `c` in this order, each with `arg_count` 0 and no
arguments; the `next` of the third node is the `next` found in the block
`malloc` returned for it, so there is no fourth node exactly when that block
had a null there. -/
theorem three_stage_chain (fresh : Nat → command_t) (a b c : CStr) (post : List Char)
    (ha : is_word a) (hb : is_word b) (hc : is_word c) (hcp : c ≠ ['|']) :
    ∃ n1 n2 n3,
      parse_command fresh (a ++ (" | ".toList ++ (b ++ (" | ".toList ++ (c ++ NUL :: post)))))
        zero_command = some n1 ∧
      n1.name = a ∧ n1.arg_count = 0 ∧ n1.args = [] ∧ n1.next = some n2 ∧
      n2.name = b ∧ n2.arg_count = 0 ∧ n2.args = [] ∧ n2.next = some n3 ∧
      n3.name = c ∧ n3.arg_count = 0 ∧ n3.args = [] ∧ n3.next = (fresh 1).next := by
  have hsp : is_blanks [' '] := by decide
  have hpw : is_word ['|'] := by decide
  have hne : ([' '] : CStr) ≠ [] := by simp
  have ht : tight [([' '], ['|']), ([' '], b), ([' '], ['|']), ([' '], c)] := by
    intro p hp
    simp only [List.mem_cons, List.mem_singleton, List.not_mem_nil, or_false] at hp
    rcases hp with hp | hp | hp | hp <;> subst hp
    · exact ⟨hsp, hne, hpw⟩
    · exact ⟨hsp, hne, hb⟩
    · exact ⟨hsp, hne, hpw⟩
    · exact ⟨hsp, hne, hc⟩
  have h := parse_command_chain fresh zero_command [] a
    [([' '], ['|']), ([' '], b), ([' '], ['|']), ([' '], c)] [] post
    (by intro x hx; simp at hx) ha ht (by intro x hx; simp at hx) rfl
    (by
      intro hlast
      simp at hlast
      exact absurd hlast hcp)
  have hmem : [] ++ (a ++ (raw [([' '], ['|']), ([' '], b), ([' '], ['|']), ([' '], c)] ++
      ([] ++ NUL :: post))) =
      a ++ (" | ".toList ++ (b ++ (" | ".toList ++ (c ++ NUL :: post)))) := by
    simp [raw, List.append_assoc]
  rw [hmem] at h
  simp only [List.map_cons, List.map_nil, loop_spec, if_true] at h
  generalize last_byte (a ++ raw [([' '], ['|']), ([' '], b), ([' '], ['|']), ([' '], c)]) = x at h
  have k := node_fields (fresh 1) x c 0
  have g := piped_node_fields (fresh 0) x b 0
    ((((set_flags (fresh 1) x).set_name c).set_args []).set_arg_count 0)
  have f := piped_node_fields zero_command x a 0
    (((((set_flags (fresh 0) x).set_name b).set_args []).set_next
      (some ((((set_flags (fresh 1) x).set_name c).set_args []).set_arg_count 0))).set_arg_count 0)
  exact ⟨_, _, _, h, f.1, f.2.1, f.2.2.1, f.2.2.2.1, g.1, g.2.1, g.2.2.1, g.2.2.2.1,
    k.1, k.2.1, k.2.2.1, k.2.2.2.1⟩

/-- The line `a | b | c` of C1 when every block `malloc` returns is zero-filled:
three nodes and no fourth. -/
theorem three_stage_chain_on_cleared_blocks (a b c : CStr) (post : List Char)
    (ha : is_word a) (hb : is_word b) (hc : is_word c) (hcp : c ≠ ['|']) :
    ∃ n1 n2 n3,
      parse_command (fun _ => zero_command)
        (a ++ (" | ".toList ++ (b ++ (" | ".toList ++ (c ++ NUL :: post))))) zero_command =
          some n1 ∧
      n1.name = a ∧ n1.arg_count = 0 ∧ n1.args = [] ∧ n1.next = some n2 ∧
      n2.name = b ∧ n2.arg_count = 0 ∧ n2.args = [] ∧ n2.next = some n3 ∧
      n3.name = c ∧ n3.arg_count = 0 ∧ n3.args = [] ∧ n3.next = none :=
  three_stage_chain (fun _ => zero_command) a b c post ha hb hc hcp

theorem chain_all_leaf (P : command_t → Prop) (c : command_t) (h : c.next = none) :
    chain_all P c ↔ P c := by
  cases c with
  | mk n b a k l r0 r1 r2 nx =>
    simp only [command_t.next] at h
    subst h
    simp [chain_all]

theorem chain_all_node (P : command_t → Prop) (c nx : command_t) (h : c.next = some nx) :
    chain_all P c ↔ P c ∧ chain_all P nx := by
  cases c with
  | mk n b a k l r0 r1 r2 nx0 =>
    simp only [command_t.next] at h
    subst h
    simp [chain_all]

theorem store_token_keeps (c : command_t) (k : Nat) (t : CStr) :
    (store_token c k t).1.next = c.next ∧ (store_token c k t).1.background = c.background := by
  rcases store_token_cases t with ⟨r, ht, _⟩ | ⟨r, ht, _⟩ | ⟨r, ht, hr, _⟩ | ⟨ha, hb, _⟩
  · rw [ht, store_token_in]; cases c; exact ⟨rfl, rfl⟩
  · rw [ht, store_token_append]; cases c; exact ⟨rfl, rfl⟩
  · rw [ht, store_token_trunc c k r hr]; cases c; exact ⟨rfl, rfl⟩
  · rw [store_token_normal c k t ha hb]; cases c; exact ⟨rfl, rfl⟩

theorem set_arg_count_keeps (c : command_t) (k : Nat) :
    (c.set_arg_count k).next = c.next ∧ (c.set_arg_count k).background = c.background := by
  cases c; exact ⟨rfl, rfl⟩

theorem set_next_keeps (c : command_t) (k : Nat) (nx : command_t) :
    ((c.set_next (some nx)).set_arg_count k).next = some nx ∧
    ((c.set_next (some nx)).set_arg_count k).background = c.background := by
  cases c; exact ⟨rfl, rfl⟩

/-- When every block `malloc` returns is zero-filled, every node `loop_spec`
builds has `background` set exactly when the last byte of the line is `&`. -/
theorem loop_spec_background (last : Char) :
    ∀ (n : Nat) (words : List CStr), words.length = n →
      (words.getLast? = some ['|'] → last ≠ '&') →
      ∀ (depth : Nat) (c : command_t) (k : Nat), c.next = none →
        (c.background = true ↔ last = '&') →
        chain_all (fun m => m.background = true ↔ last = '&')
          (loop_spec (fun _ => zero_command) last words depth c k) := by
  intro n
  induction n using Nat.strong_induction_on with
  | _ n ih =>
    intro words hn hpipe depth c k hnx hbg
    cases words with
    | nil =>
      simp only [loop_spec]
      rw [chain_all_leaf _ _ (by rw [(set_arg_count_keeps c k).1]; exact hnx),
        (set_arg_count_keeps c k).2]
      exact hbg
    | cons t ts =>
      by_cases hp : t = ['|']
      · subst hp
        cases ts with
        | nil =>
          simp only [loop_spec, if_true]
          rw [chain_all_node _ _ _ (set_next_keeps c k _).1, (set_next_keeps c k _).2]
          refine ⟨hbg, ?_⟩
          have hl : last ≠ '&' := hpipe (by simp)
          simp [chain_all, zero_command, command_t.set_name, command_t.set_args,
            command_t.set_arg_count, command_t.background, hl]
        | cons n1 ts1 =>
          simp only [loop_spec, if_true]
          rw [chain_all_node _ _ _ (set_next_keeps c k _).1, (set_next_keeps c k _).2]
          refine ⟨hbg, ?_⟩
          have hnode := node_fields zero_command last n1 0
          apply ih ts1.length (by rw [← hn]; simp; omega) ts1 rfl
          · intro h
            apply hpipe
            exact getLast?_cons_some _ _ _ (getLast?_cons_some _ _ _ h)
          · obtain ⟨_, _, _, _, _, s6, _⟩ := set_flags_fields zero_command last
            cases hsf : set_flags zero_command last with
            | mk a1 a2 a3 a4 a5 a6 a7 a8 a9 =>
              rw [hsf] at s6
              simp only [command_t.next, zero_command] at s6
              subst s6
              rfl
          · obtain ⟨_, s2, _⟩ := set_flags_fields zero_command last
            cases hsf : set_flags zero_command last with
            | mk a1 a2 a3 a4 a5 a6 a7 a8 a9 =>
              rw [hsf] at s2
              simp only [command_t.background, zero_command] at s2
              simp only [command_t.set_name, command_t.set_args, command_t.background, s2]
              by_cases hl : last = '&'
              · simp [hl]
              · simp [hl]
      · have hts : ts.getLast? = some ['|'] → last ≠ '&' := by
          intro h
          exact hpipe (getLast?_cons_some _ _ _ h)
        by_cases ha : t = ['&']
        · subst ha
          rw [loop_spec_amp]
          exact ih ts.length (by rw [← hn]; simp) ts rfl hts depth c k hnx hbg
        · rw [loop_spec_store _ _ _ _ _ _ _ hp ha]
          apply ih ts.length (by rw [← hn]; simp) ts rfl hts
          · rw [(store_token_keeps c k t).1]; exact hnx
          · rw [(store_token_keeps c k t).2]; exact hbg

theorem last_word_last_byte (name : CStr) (toks : List (CStr × CStr)) (t : CStr)
    (ht : t ≠ []) (h : (toks.map Prod.snd).getLast? = some t) :
    last_byte (name ++ raw toks) = last_byte t := by
  obtain ⟨ys, hys⟩ := List.getLast?_eq_some_iff.mp h
  have hne : toks ≠ [] := by
    intro h0
    subst h0
    simp at h
  obtain ⟨p, hp⟩ := Option.isSome_iff_exists.mp (List.getLast?_isSome.mpr hne)
  obtain ⟨init, hinit⟩ := List.getLast?_eq_some_iff.mp hp
  subst hinit
  have hpt : p.2 = t := by
    rw [List.map_append, List.map_singleton, List.getLast?_append] at h
    simpa using h
  have hraw : ∀ (l : List (CStr × CStr)), raw (l ++ [p]) = raw l ++ (p.1 ++ p.2) := by
    intro l
    induction l with
    | nil => simp [raw]
    | cons q l ih => simp [raw, ih, List.append_assoc]
  rw [hraw, ← hpt]
  have e : name ++ (raw init ++ (p.1 ++ p.2)) = (name ++ raw init ++ p.1) ++ p.2 := by
    simp [List.append_assoc]
  rw [e, last_byte_append _ _ (by rw [hpt]; exact ht)]

/-- The part of C8 the code does satisfy: when every block `malloc` returns is
zero-filled, for every line with a command name parsed into a zero-initialised
command, every node of the chain has `background` set exactly when the last
non-blank character of the line is `&`. -/
theorem background_on_cleared_blocks (lead name : List Char) (toks : List (CStr × CStr))
    (trail post : List Char)
    (hl : is_blanks lead) (hn : is_word name) (ht : tight toks) (htr : is_blanks trail)
    (hb : fits_temp_buf (toks.map Prod.snd) = true)
    (hpost : (toks.map Prod.snd).getLast? = some ['|'] → trail ≠ [] ∨ rd post 0 = NUL) :
    ∃ c, parse_command (fun _ => zero_command)
        (lead ++ (name ++ (raw toks ++ (trail ++ NUL :: post)))) zero_command = some c ∧
      chain_all (fun m => m.background = true ↔ last_byte (name ++ raw toks) = '&') c := by
  refine ⟨_, parse_command_chain (fun _ => zero_command) zero_command lead name toks trail post
    hl hn ht htr hb hpost, ?_⟩
  apply loop_spec_background _ _ _ rfl
  · intro h
    rw [last_word_last_byte name toks ['|'] (by simp) h]
    decide
  · obtain ⟨_, _, _, _, _, s6, _⟩ := set_flags_fields zero_command (last_byte (name ++ raw toks))
    cases hsf : set_flags zero_command (last_byte (name ++ raw toks)) with
    | mk a1 a2 a3 a4 a5 a6 a7 a8 a9 =>
      rw [hsf] at s6
      simp only [command_t.next, zero_command] at s6
      subst s6
      rfl
  · obtain ⟨_, s2, _⟩ := set_flags_fields zero_command (last_byte (name ++ raw toks))
    cases hsf : set_flags zero_command (last_byte (name ++ raw toks)) with
    | mk a1 a2 a3 a4 a5 a6 a7 a8 a9 =>
      rw [hsf] at s2
      simp only [command_t.background, zero_command] at s2
      simp only [command_t.set_name, command_t.set_args, command_t.background, s2]
      by_cases hl : last_byte (name ++ raw toks) = '&'
      · simp [hl]
      · simp [hl]

/-! ## Chained commands are built in blocks `malloc` did not clear -/

/-- C1 on the code: for the line `a | b | c` parsed into a zero-initialised
command, when the blocks `malloc` returns for the chained commands are not
zero-filled, the third node's `next` is not null: line 145 allocates the node
and nothing on the path of lines 90-196 stores to `next` unless a `|` follows. -/
theorem three_stages_keep_stale_next :
    ∃ n1 n2 n3 n4,
      parse_command (fun _ => stale_block) ("a | b | c".toList ++ [NUL]) zero_command = some n1 ∧
      n1.name = "a".toList ∧ n1.next = some n2 ∧ n2.name = "b".toList ∧ n2.next = some n3 ∧
      n3.name = "c".toList ∧ n3.next = some n4 :=
  ⟨_, _, _, _, rfl, rfl, rfl, rfl, rfl, rfl, rfl⟩

/-- C8 on the code: for the line `a | b`, whose last character is not `&`,
the second node has `background` set when the block `malloc` returned for it
had that byte set: lines 104-105 only ever store `true`. -/
theorem chained_node_keeps_stale_background :
    ∃ n1 n2,
      parse_command (fun _ => stale_block) ("a | b".toList ++ [NUL]) zero_command = some n1 ∧
      n1.background = false ∧ n1.next = some n2 ∧ n2.name = "b".toList ∧
      n2.background = true ∧ last_byte "a | b".toList ≠ '&' :=
  ⟨_, _, rfl, rfl, rfl, rfl, rfl, by decide⟩

/-! ## The claims about solve_uniq and resolve_command -/

/-- C4 on the code: on an empty standard input with `-c`, `solve_uniq` writes
`0 ` followed by whatever string the untouched buffer holds, so its output is
never empty: lines 473-477 print once more after the loop even when the loop
never ran. -/
theorem uniq_count_writes_on_empty_input (eof_buffer : CStr) :
    solve_uniq 3 [some "uniq".toList, some "-c".toList, none] [] eof_buffer =
        some ('0' :: ' ' :: eof_buffer) ∧
      solve_uniq 3 [some "uniq".toList, some "-c".toList, none] [] eof_buffer ≠ some [] := by
  have h : solve_uniq 3 [some "uniq".toList, some "-c".toList, none] [] eof_buffer =
      some ('0' :: ' ' :: eof_buffer) := rfl
  exact ⟨h, by rw [h]; simp⟩

/-- The example of spec.md: `a a b` without the flag. -/
theorem uniq_example_plain :
    solve_uniq 2 [some "uniq".toList, none] "a\na\nb\n".toList [] = some "a\nb\n".toList := by
  decide

/-- The example of spec.md: `a a b` with `-c`. -/
theorem uniq_example_count :
    solve_uniq 3 [some "uniq".toList, some "-c".toList, none] "a\na\nb\n".toList [] =
      some "2 a\n1 b\n".toList := by
  decide

/-! ### resolve_command when the slots it did not fill are null -/

theorem dir_head_ne (t r : List Char) (ht : is_dir t) :
    rd (t ++ r) 0 ≠ NUL ∧ rd (t ++ r) 0 ≠ ':' := by
  obtain ⟨hne, hall⟩ := ht
  cases t with
  | nil => exact absurd rfl hne
  | cons c t => simpa [rd] using hall c (by simp)

theorem colons_dir_head_ne (w t r : List Char) (hw : is_colons w) (ht : is_dir t) :
    rd (w ++ (t ++ r)) 0 ≠ NUL := by
  cases w with
  | nil => exact (dir_head_ne t r ht).1
  | cons c w =>
    have h := hw c (by simp)
    subst h
    simp [rd, NUL]

theorem strspn_colons (a w t r : List Char) (p : Nat) (hp : p = a.length)
    (hw : is_colons w) (ht : is_dir t) :
    strspn (a ++ (w ++ (t ++ r))) p [':'] = w.length := by
  unfold strspn
  rw [drop_at a _ p hp, takeWhile_run _ w (t ++ r)]
  · intro c hc
    have := hw c hc
    subst this
    decide
  · intro c hc
    have h := dir_head_ne t r ht
    rw [rd_head, hc] at h
    simp only [Option.getD_some] at h
    simp [h.2]

theorem strcspn_dir (a t r : List Char) (p : Nat) (hp : p = a.length) (ht : is_dir t)
    (hr : ∀ c, r.head? = some c → c = NUL ∨ c = ':') :
    strcspn (a ++ (t ++ r)) p [':'] = t.length := by
  unfold strcspn
  rw [drop_at a _ p hp, takeWhile_run _ t r]
  · intro c hc
    have h := ht.2 c hc
    simp [h.1, h.2]
  · intro c hc
    rcases hr c hc with h | h <;> subst h <;> decide

theorem strtok_last_dir (a w t r : List Char) (s : Option Nat) (olds : Nat)
    (hs : s.getD olds = a.length) (hw : is_colons w) (ht : is_dir t) (hr : rd r 0 = NUL) :
    strtok (a ++ (w ++ (t ++ r))) s [':'] olds =
      (some (a.length + w.length), a ++ (w ++ (t ++ r)), a.length + w.length + t.length) := by
  have hr1 : ∀ c, r.head? = some c → c = NUL ∨ c = ':' := by
    intro c hc
    rw [rd_head, hc] at hr
    exact Or.inl hr
  unfold strtok
  simp only [hs]
  rw [rd_append_right a _ a.length 0 rfl, if_neg (colons_dir_head_ne w t r hw ht),
    strspn_colons a w t r a.length rfl hw ht, rd_at2 a w (t ++ r) _ rfl,
    if_neg (dir_head_ne t r ht).1]
  have h1 : strcspn (a ++ (w ++ (t ++ r))) (a.length + w.length) [':'] = t.length := by
    have := strcspn_dir (a ++ w) t r (a.length + w.length) (by simp) ht hr1
    simpa [List.append_assoc] using this
  rw [h1, rd_at3 a w t r _ rfl, if_pos hr]

theorem strtok_inner_dir (a w t : List Char) (r : List Char) (s : Option Nat)
    (olds : Nat) (hs : s.getD olds = a.length) (hw : is_colons w) (ht : is_dir t) :
    strtok (a ++ (w ++ (t ++ ':' :: r))) s [':'] olds =
      (some (a.length + w.length), a ++ (w ++ (t ++ NUL :: r)),
        a.length + w.length + t.length + 1) := by
  have hr1 : ∀ c, (':' :: r).head? = some c → c = NUL ∨ c = ':' := by
    intro c hc
    simp only [List.head?_cons, Option.some.injEq] at hc
    exact Or.inr hc.symm
  have hd0 : ':' ≠ NUL := by decide
  unfold strtok
  simp only [hs]
  rw [rd_append_right a _ a.length 0 rfl, if_neg (colons_dir_head_ne w t _ hw ht),
    strspn_colons a w t _ a.length rfl hw ht, rd_at2 a w (t ++ ':' :: r) _ rfl,
    if_neg (dir_head_ne t _ ht).1]
  have h1 : strcspn (a ++ (w ++ (t ++ ':' :: r))) (a.length + w.length) [':'] = t.length := by
    have := strcspn_dir (a ++ w) t (':' :: r) (a.length + w.length) (by simp) ht hr1
    simpa [List.append_assoc] using this
  rw [h1, rd_at3 a w t (':' :: r) _ rfl, rd_cons_zero, if_neg hd0, wr_at3 a w t ':' r _ rfl]

theorem strtok_none_colons (a w r : List Char) (s : Option Nat) (olds : Nat)
    (hs : s.getD olds = a.length) (hw : is_colons w) (hr : rd r 0 = NUL) :
    ∃ q, strtok (a ++ (w ++ r)) s [':'] olds = (none, a ++ (w ++ r), q) := by
  unfold strtok
  simp only [hs]
  by_cases h0 : rd (a ++ (w ++ r)) a.length = NUL
  · exact ⟨a.length, by rw [if_pos h0]⟩
  · rw [if_neg h0]
    have h1 : strspn (a ++ (w ++ r)) a.length [':'] = w.length := by
      unfold strspn
      rw [drop_at a _ _ rfl, takeWhile_run _ w r]
      · intro c hc
        have := hw c hc
        subst this
        decide
      · intro c hc
        rw [rd_head, hc] at hr
        simp only [Option.getD_some] at hr
        subst hr
        decide
    rw [h1]
    have h2 : rd (a ++ (w ++ r)) (a.length + w.length) = NUL := by
      rw [rd_at2 a w r _ rfl]; exact hr
    exact ⟨a.length + w.length, by rw [if_pos h2]⟩

/-- The copy loop of lines 506-513 yields the directories of the search path
in order: the text at the scanning position is colons, a directory, the
directories of `more` each after colons, colons again, and the terminator. -/
theorem path_tokens_dirs :
    ∀ (more : List (CStr × CStr)), tight_path more →
    ∀ (w0 d : CStr), is_colons w0 → is_dir d →
    ∀ (fuel : Nat), more.length + 1 < fuel → ∀ (a tc : List Char) (s : Option Nat) (olds : Nat),
      s.getD olds = a.length → is_colons tc →
      (match strtok (a ++ (raw ((w0, d) :: more) ++ (tc ++ [NUL]))) s [':'] olds with
        | (t, mem, olds1) => path_tokens fuel mem olds1 t) = d :: more.map Prod.snd := by
  intro more
  induction more with
  | nil =>
    intro _ w0 d hw0 hdir fuel hf a tc s olds hs htc
    obtain ⟨f, rfl⟩ : ∃ f, fuel = f + 1 := ⟨fuel - 1, by omega⟩
    obtain ⟨f1, rfl⟩ : ∃ f1, f = f1 + 1 := ⟨f - 1, by simp at hf; omega⟩
    cases tc with
    | nil =>
      have hst := strtok_last_dir a w0 d [NUL] s olds hs hw0 hdir (by simp [rd])
      have hmem : a ++ (raw [(w0, d)] ++ ([] ++ [NUL])) = a ++ (w0 ++ (d ++ [NUL])) := by
        simp [raw]
      rw [hmem, hst]
      dsimp only
      rw [path_tokens]
      have hc : cstr (a ++ (w0 ++ (d ++ [NUL]))) (a.length + w0.length) = d := by
        have := cstr_at (a ++ w0) d [NUL] (a.length + w0.length) (by simp)
          (fun c hc => (hdir.2 c hc).1) (by intro c hc; simpa using hc.symm)
        simpa [List.append_assoc] using this
      have hnone := strtok_at_nul (a ++ (w0 ++ (d ++ [NUL]))) none [':']
        (a.length + w0.length + d.length)
        (by simpa using rd_at3 a w0 d [NUL] (a.length + w0.length + d.length) rfl)
      rw [hnone]
      dsimp only
      rw [hc]
      simp [path_tokens]
    | cons x tc1 =>
      have hx : x = ':' := htc x (by simp)
      subst hx
      have hst := strtok_inner_dir a w0 d (tc1 ++ [NUL]) s olds hs hw0 hdir
      have hmem : a ++ (raw [(w0, d)] ++ (':' :: tc1 ++ [NUL])) =
          a ++ (w0 ++ (d ++ ':' :: (tc1 ++ [NUL]))) := by
        simp [raw]
      rw [hmem, hst]
      dsimp only
      rw [path_tokens]
      have hc : cstr (a ++ (w0 ++ (d ++ NUL :: (tc1 ++ [NUL])))) (a.length + w0.length) = d := by
        have := cstr_at (a ++ w0) d (NUL :: (tc1 ++ [NUL])) (a.length + w0.length) (by simp)
          (fun c hc => (hdir.2 c hc).1) (by intro c hc; simpa using hc.symm)
        simpa [List.append_assoc] using this
      obtain ⟨q, hnone⟩ := strtok_none_colons (a ++ (w0 ++ (d ++ [NUL]))) tc1 [NUL] none
        (a.length + w0.length + d.length + 1) (by simp; omega)
        (fun c hc => htc c (by simp [hc])) (by simp [rd])
      have hm2 : a ++ (w0 ++ (d ++ [NUL])) ++ (tc1 ++ [NUL]) =
          a ++ (w0 ++ (d ++ NUL :: (tc1 ++ [NUL]))) := by simp [List.append_assoc]
      rw [hm2] at hnone
      rw [hnone]
      dsimp only
      rw [hc]
      simp [path_tokens]
  | cons p2 more2 ih =>
    intro hmore w0 d hw0 hdir fuel hf a tc s olds hs htc
    obtain ⟨f, rfl⟩ : ∃ f, fuel = f + 1 := ⟨fuel - 1, by omega⟩
    obtain ⟨w2, d2⟩ := p2
    have hp2 := hmore (w2, d2) (by simp)
    have hmore2 : tight_path more2 := fun q hq => hmore q (by simp [hq])
    obtain ⟨x, w1, hw2⟩ : ∃ x w1, w2 = x :: w1 := by
      cases w2 with
      | nil => exact absurd rfl hp2.2.1
      | cons x w1 => exact ⟨x, w1, rfl⟩
    subst hw2
    have hx : x = ':' := hp2.1 x (by simp)
    subst hx
    have hw1 : is_colons w1 := fun q hq => hp2.1 q (by simp [hq])
    have hst := strtok_inner_dir a w0 d (w1 ++ (d2 ++ (raw more2 ++ (tc ++ [NUL])))) s olds hs
      hw0 hdir
    have hmem : a ++ (raw ((w0, d) :: (':' :: w1, d2) :: more2) ++ (tc ++ [NUL])) =
        a ++ (w0 ++ (d ++ ':' :: (w1 ++ (d2 ++ (raw more2 ++ (tc ++ [NUL])))))) := by
      simp [raw, List.append_assoc]
    rw [hmem, hst]
    dsimp only
    rw [path_tokens]
    have hc : cstr (a ++ (w0 ++ (d ++ NUL :: (w1 ++ (d2 ++ (raw more2 ++ (tc ++ [NUL])))))))
        (a.length + w0.length) = d := by
      have := cstr_at (a ++ w0) d (NUL :: (w1 ++ (d2 ++ (raw more2 ++ (tc ++ [NUL])))))
        (a.length + w0.length) (by simp)
        (fun c hc => (hdir.2 c hc).1) (by intro c hc; simpa using hc.symm)
      simpa [List.append_assoc] using this
    rw [hc]
    have hrec := ih hmore2 w1 d2 hw1 hp2.2.2 f (by simp at hf ⊢; omega)
      (a ++ (w0 ++ (d ++ [NUL]))) tc none (a.length + w0.length + d.length + 1)
      (by simp; omega) htc
    have hm2 : a ++ (w0 ++ (d ++ [NUL])) ++ (raw ((w1, d2) :: more2) ++ (tc ++ [NUL])) =
        a ++ (w0 ++ (d ++ NUL :: (w1 ++ (d2 ++ (raw more2 ++ (tc ++ [NUL])))))) := by
      simp [raw, List.append_assoc]
    rw [hm2] at hrec
    revert hrec
    generalize strtok (a ++ (w0 ++ (d ++ NUL :: (w1 ++ (d2 ++ (raw more2 ++ (tc ++ [NUL])))))))
      none [':'] (a.length + w0.length + d.length + 1) = r
    obtain ⟨t, m, o⟩ := r
    intro hrec
    dsimp only at hrec ⊢
    rw [hrec]
    simp

theorem tight_path_length_le (dirs : List (CStr × CStr)) (h : tight_path dirs) :
    dirs.length ≤ (raw dirs).length := by
  induction dirs with
  | nil => simp
  | cons p rest ih =>
    have hp := h p (by simp)
    have hrest : tight_path rest := fun q hq => h q (by simp [hq])
    have := ih hrest
    have h1 : 0 < p.1.length := List.length_pos.mpr hp.2.1
    simp only [raw, List.length_cons, List.length_append]
    omega

/-- The loop of line 516 over slots that hold `dirs` and then null pointers. -/
theorem scan_paths_first_match (env : Env) (paths : Nat → Option CStr) (command_name : CStr) :
    ∀ (n i : Nat) (dirs : List CStr), dirs.length ≤ n →
      (∀ k, k < n → paths (i + k) = dirs.get? k) →
      scan_paths env paths command_name n i = first_match env command_name dirs := by
  intro n
  induction n with
  | zero =>
    intro i dirs hl _
    have : dirs = [] := List.length_eq_zero.mp (by omega)
    subst this
    rfl
  | succ n ih =>
    intro i dirs hl hp
    have h0 := hp 0 (by omega)
    rw [Nat.add_zero] at h0
    rw [scan_paths, h0]
    cases dirs with
    | nil =>
      simp only [List.get?_nil]
      exact ih (i + 1) [] (by simp) (fun k hk => by
        have e : i + 1 + k = i + (k + 1) := by omega
        rw [e, hp (k + 1) (by omega)]
        rfl)
    | cons d ds =>
      have hrec := ih (i + 1) ds (by simp at hl; omega) (fun k hk => by
        have e : i + 1 + k = i + (k + 1) := by omega
        rw [e, hp (k + 1) (by omega), List.get?_cons_succ])
      simp only [List.get?_cons_zero, first_match]
      rw [hrec]

/-- The directories the copy loop stores, for a search path that names at least
one directory. -/
theorem path_dirs (env : Env) (w0 d tc : CStr) (more : List (CStr × CStr))
    (hpath : env.PATH = raw ((w0, d) :: more) ++ tc)
    (hw0 : is_colons w0) (hd : is_dir d) (hmore : tight_path more) (htc : is_colons tc) :
    ∃ t mem olds, strtok (env.PATH ++ [NUL]) (some 0) [':'] 0 = (t, mem, olds) ∧
      path_tokens ((env.PATH ++ [NUL]).length + 1) mem olds t = d :: more.map Prod.snd := by
  have hlen := tight_path_length_le more hmore
  have hd1 : 0 < d.length := List.length_pos.mpr hd.1
  have h := path_tokens_dirs more hmore w0 d hw0 hd ((env.PATH ++ [NUL]).length + 1)
    (by
      rw [hpath]
      simp only [raw, List.length_append, List.length_cons, List.length_nil]
      omega)
    [] tc (some 0) 0 rfl htc
  have hm : [] ++ (raw ((w0, d) :: more) ++ (tc ++ [NUL])) = env.PATH ++ [NUL] := by
    rw [hpath]; simp [List.append_assoc]
  rw [hm] at h
  revert h
  cases strtok (env.PATH ++ [NUL]) (some 0) [':'] 0 with
  | mk t rest =>
    obtain ⟨m, o⟩ := rest
    intro h
    exact ⟨t, m, o, rfl, h⟩

/-- The slots after the copy loop, for a search path that names at least one
directory and no more directories than `paths` has slots. -/
theorem fill_paths_dirs (env : Env) (w0 d tc : CStr) (more : List (CStr × CStr))
    (hpath : env.PATH = raw ((w0, d) :: more) ++ tc)
    (hw0 : is_colons w0) (hd : is_dir d) (hmore : tight_path more) (htc : is_colons tc)
    (hfit : more.length + 1 ≤ paths_slots) :
    fill_paths env = some (fun i =>
      if i < (d :: more.map Prod.snd).length then (d :: more.map Prod.snd).get? i
      else env.stale i) := by
  obtain ⟨t, m, o, hs, h⟩ := path_dirs env w0 d tc more hpath hw0 hd hmore htc
  unfold fill_paths
  dsimp only
  rw [hs]
  dsimp only
  rw [h, if_neg (by simp only [List.length_cons, List.length_map]; omega)]

/-- With more directories in the search path than `paths` has slots the copy
loop writes past the end of the array. -/
theorem fill_paths_overflow (env : Env) (w0 d tc : CStr) (more : List (CStr × CStr))
    (hpath : env.PATH = raw ((w0, d) :: more) ++ tc)
    (hw0 : is_colons w0) (hd : is_dir d) (hmore : tight_path more) (htc : is_colons tc)
    (hover : paths_slots < more.length + 1) (command_name : CStr) :
    fill_paths env = none ∧ resolve_command env command_name = none := by
  obtain ⟨t, m, o, hs, h⟩ := path_dirs env w0 d tc more hpath hw0 hd hmore htc
  have hf : fill_paths env = none := by
    unfold fill_paths
    dsimp only
    rw [hs]
    dsimp only
    rw [h, if_pos (by simp only [List.length_cons, List.length_map]; omega)]
  exact ⟨hf, by unfold resolve_command; rw [hf]⟩

/-- The lookup on a search path that names at least one directory and no more
than `paths` has slots, when every slot the loop of line 516 reads and the copy
loop did not write is null: the path written is that of the first directory,
in search-path order, that opens and lists the command, and the empty string
when none does. -/
theorem resolve_command_first_match (env : Env) (command_name w0 d tc : CStr)
    (more : List (CStr × CStr))
    (hpath : env.PATH = raw ((w0, d) :: more) ++ tc)
    (hw0 : is_colons w0) (hd : is_dir d) (hmore : tight_path more) (htc : is_colons tc)
    (hfit : more.length + 1 ≤ paths_slots)
    (hnull : ∀ i, more.length + 1 ≤ i → i < sizeof_paths → env.stale i = none) :
    resolve_command env command_name =
      some (first_match env command_name (d :: more.map Prod.snd)) := by
  unfold resolve_command
  rw [fill_paths_dirs env w0 d tc more hpath hw0 hd hmore htc hfit]
  dsimp only
  congr 1
  apply scan_paths_first_match
  · simp only [List.length_cons, List.length_map, sizeof_paths]
    simp only [paths_slots] at hfit
    omega
  · intro k hk
    rw [Nat.zero_add]
    by_cases hlt : k < (d :: more.map Prod.snd).length
    · rw [if_pos hlt]
    · rw [if_neg hlt]
      have hge : more.length + 1 ≤ k := by
        simp only [List.length_cons, List.length_map] at hlt; omega
      rw [hnull k hge hk, List.get?_eq_none.mpr (by omega)]

/-- A search path without any directory: the lookup then reads only slots
that were never written. -/
theorem fill_paths_no_dirs (env : Env) (hpath : is_colons env.PATH) :
    fill_paths env = some env.stale := by
  obtain ⟨q, h⟩ := strtok_none_colons [] env.PATH [NUL] (some 0) 0 rfl hpath (by simp [rd])
  have hm : [] ++ (env.PATH ++ [NUL]) = env.PATH ++ [NUL] := rfl
  rw [hm] at h
  unfold fill_paths
  dsimp only
  rw [h]
  simp [path_tokens]

/-! ### solve_uniq on an input that is not empty -/

theorem getline_line (l rest : List Char) (h : ∀ c ∈ l, c ≠ '\n') :
    getline (l ++ '\n' :: rest) = some (l ++ ['\n'], rest) := by
  have htw : (l ++ '\n' :: rest).takeWhile (fun c => c != '\n') = l :=
    takeWhile_run _ l ('\n' :: rest) (by intro c hc; simpa using h c hc)
      (by intro c hc; simp at hc; subst hc; rfl)
  cases l with
  | nil => simp [getline]
  | cons x l1 =>
    have hd := drop_at (x :: l1) ('\n' :: rest) (x :: l1).length rfl
    rw [List.cons_append] at htw hd ⊢
    unfold getline
    dsimp only
    rw [htw, hd]

theorem c_view_line (l : List Char) (h : ∀ c ∈ l, c ≠ NUL) : c_view (l ++ ['\n']) = l ++ ['\n'] := by
  unfold c_view
  rw [List.takeWhile_eq_self_iff.mpr]
  intro c hc
  rcases List.mem_append.mp hc with hc | hc
  · simpa using h c hc
  · simp at hc; subst hc; decide

theorem merge_run_add (p : CStr) (k : Nat) (rs : List (CStr × Nat)) :
    ∃ j rest, merge_run p 1 rs = (p, j) :: rest ∧ merge_run p (k + 1) rs = (p, k + j) :: rest := by
  cases rs with
  | nil => exact ⟨1, [], rfl, rfl⟩
  | cons q rs =>
    obtain ⟨m, j⟩ := q
    by_cases h : m = p
    · exact ⟨1 + j, rs, by simp [merge_run, h], by simp [merge_run, h, Nat.add_assoc]⟩
    · exact ⟨1, (m, j) :: rs, by simp [merge_run, h], by simp [merge_run, h]⟩

/-- The loop of lines 456-477 once a first line `p` has been read `k` times:
it writes the run of `p` joined with the runs of the lines still to come. -/
theorem uniq_loop_runs (print_count : Bool) :
    ∀ (ls : List CStr), (∀ l ∈ ls, ∀ c ∈ l, c ≠ '\n' ∧ c ≠ NUL) →
    ∀ (fuel : Nat), ls.length < fuel → ∀ (p : CStr) (k : Nat) (out : List Char),
      uniq_loop print_count fuel (render_lines ls) (some (p ++ ['\n'])) (p ++ ['\n']) k out =
        some (out ++ render_runs print_count (merge_run p k (runs ls))) := by
  intro ls
  induction ls with
  | nil =>
    intro _ fuel hf p k out
    obtain ⟨f, rfl⟩ : ∃ f, fuel = f + 1 := ⟨fuel - 1, by omega⟩
    simp [uniq_loop, render_lines, getline, runs, merge_run, render_runs]
  | cons l ls ih =>
    intro h fuel hf p k out
    obtain ⟨f, rfl⟩ : ∃ f, fuel = f + 1 := ⟨fuel - 1, by omega⟩
    have hl := h l (by simp)
    have hls : ∀ m ∈ ls, ∀ c ∈ m, c ≠ '\n' ∧ c ≠ NUL := fun m hm => h m (by simp [hm])
    have hf1 : ls.length < f := by simp at hf; omega
    rw [uniq_loop, render_lines, getline_line l _ (fun c hc => (hl c hc).1)]
    dsimp only
    rw [c_view_line l (fun c hc => (hl c hc).2)]
    obtain ⟨j, rest, hj1, hj2⟩ := merge_run_add l k (runs ls)
    by_cases hlp : l = p
    · subst hlp
      have hcond : (some (l ++ ['\n']) = none ∨ some (l ++ ['\n']) = some (l ++ ['\n'])) :=
        Or.inr rfl
      rw [if_pos hcond]
      dsimp only
      rw [ih hls f hf1 l (k + 1) out, runs, hj1, hj2]
      simp [merge_run]
    · have hcond : ¬(some (p ++ ['\n']) = none ∨ some (p ++ ['\n']) = some (l ++ ['\n'])) := by
        intro hc
        rcases hc with hc | hc
        · simp at hc
        · simp only [Option.some.injEq] at hc
          exact hlp (List.append_cancel_right hc).symm
      rw [if_neg hcond]
      dsimp only [Option.getD_some]
      rw [ih hls f hf1 l 1 (out ++ uniq_print print_count k (p ++ ['\n'])), runs, hj1]
      simp [merge_run, hlp, render_runs, List.append_assoc]

/-- The part of C4 the code does satisfy: for every sequence of
newline-terminated lines that is not empty (lines without NUL), `solve_uniq`
writes exactly one line per maximal run of adjacent equal lines, in input
order, after the length of the run and a space when its first argument is `-c`
or `--count`. -/
theorem uniq_on_lines (arg_count : Nat) (args : List (Option CStr)) (l : CStr)
    (ls : List CStr) (eof_buffer : CStr)
    (h : ∀ m ∈ l :: ls, ∀ c ∈ m, c ≠ '\n' ∧ c ≠ NUL) :
    solve_uniq arg_count args (render_lines (l :: ls)) eof_buffer =
      some (render_runs
        (decide (arg_count ≥ 3) &&
          (args.get? 1 == some (some ['-', 'c']) ||
           args.get? 1 == some (some ['-', '-', 'c', 'o', 'u', 'n', 't'])))
        (runs (l :: ls))) := by
  have hl := h l (by simp)
  have hls : ∀ m ∈ ls, ∀ c ∈ m, c ≠ '\n' ∧ c ≠ NUL := fun m hm => h m (by simp [hm])
  have hlen : ls.length < (render_lines (l :: ls)).length := by
    have : ∀ (xs : List CStr), xs.length ≤ (render_lines xs).length := by
      intro xs
      induction xs with
      | nil => simp [render_lines]
      | cons x xs ih => simp only [render_lines, List.length_cons, List.length_append]; omega
    have := this ls
    simp only [render_lines, List.length_cons, List.length_append]
    omega
  unfold solve_uniq
  dsimp only
  rw [uniq_loop, render_lines, getline_line l _ (fun c hc => (hl c hc).1)]
  dsimp only
  rw [c_view_line l (fun c hc => (hl c hc).2), if_pos (Or.inl rfl)]
  dsimp only
  rw [uniq_loop_runs _ ls hls _ (by simp only [render_lines] at hlen; exact hlen) l (0 + 1) []]
  simp [runs]

/-- C5 on the code: with the search path `/bin`, which does not hold `tool`,
`resolve_command` still writes a path, taken from a slot of `paths` that was
never initialised: the loop of line 516 visits `sizeof(paths)` slots, not the
slots that were filled. -/
theorem resolve_reads_uninitialised_slot :
    resolve_command stale_env "tool".toList = some "/opt/tool".toList ∧
      resolve_command stale_env "ls".toList = some "/bin/ls".toList := by
  constructor <;> decide

end Skell
